import Mathlib

/-!
# participle/lexer: token transforms (`map.go`) and the lexer contract (`lexer.go`)

A shallow embedding of the Go package `lexer`.

* A Go `string` is a sequence of bytes: `GoString := List Nat`, each element a byte value.
* A Go `rune` is a number; token types are `Int` (the end-of-file type is `-1`), decoded
  character values are `Nat` (they are never negative once accepted).
* A Go call either returns or unwinds with a panic value: `Res`.
* A Go `map` is an association list read through `GoMap.get`, which yields the zero value
  for an absent key, exactly like the Go index expression `m[k]`.
* The standard-library functions the package calls (`strconv.UnquoteChar`,
  `utf8.DecodeRuneInString`, the conversion `string(rune)`) and the one its documentation
  names (`strconv.Unquote`) are transcribed from the Go standard library, in the
  behaviour of Go 1.17 and later (`UnquoteChar` rejects surrogate halves), so that
  `unquote` can be evaluated on concrete byte strings.
* A loop of the code is a function with a bound on its iterations; the bound the callers
  pass is shown to be enough (`unquoteLoop_returns`, `unquoteLoop_fuel`).
-/

namespace Participle

/-! ## Go strings -/

/-- A Go string: its bytes, in order. -/
abbrev GoString := List Nat

/-- The bytes of an ASCII text, used to write Go string literals. -/
def str (s : String) : GoString := s.toList.map Char.toNat

/-! ## Package `unicode/utf8` -/

namespace utf8

/-- The "error" rune U+FFFD. -/
def RuneError : Nat := 0xFFFD
/-- Characters below `RuneSelf` are represented as themselves in a single byte. -/
def RuneSelf : Nat := 0x80
/-- Maximum valid Unicode code point. -/
def MaxRune : Nat := 0x10FFFF
def surrogateMin : Nat := 0xD800
def surrogateMax : Nat := 0xDFFF

/-- The table `first`: information about the first byte of a UTF-8 sequence.
`0xF0` (`as`) is ASCII, `0xF1` (`xx`) is invalid; otherwise the low three bits are the
sequence length and the high four bits index `acceptRanges`. -/
def first (b : Nat) : Nat :=
  if b < 0x80 then 0xF0
  else if b < 0xC2 then 0xF1
  else if b < 0xE0 then 0x02
  else if b = 0xE0 then 0x13
  else if b < 0xED then 0x03
  else if b = 0xED then 0x23
  else if b < 0xF0 then 0x03
  else if b = 0xF0 then 0x34
  else if b < 0xF4 then 0x04
  else if b = 0xF4 then 0x44
  else 0xF1

/-- The table `acceptRanges`: the range `(lo, hi)` of valid second bytes. -/
def acceptRanges (i : Nat) : Nat × Nat :=
  match i with
  | 0 => (0x80, 0xBF)
  | 1 => (0xA0, 0xBF)
  | 2 => (0x80, 0x9F)
  | 3 => (0x90, 0xBF)
  | 4 => (0x80, 0x8F)
  | _ => (0, 0)

/-- `utf8.DecodeRuneInString`: the first rune of `s` and its width in bytes;
`(RuneError, 0)` on the empty string and `(RuneError, 1)` on an invalid encoding. -/
def DecodeRuneInString (s : GoString) : Nat × Nat :=
  let n := s.length
  if n < 1 then (RuneError, 0)
  else
    let s0 := s.getD 0 0
    let x := first s0
    if x ≥ 0xF0 then
      -- `mask := rune(x) << 31 >> 31`: all ones exactly when the low bit of `x` is set
      (if x &&& 1 = 1 then RuneError else s0, 1)
    else
      let sz := x &&& 7
      let accept := acceptRanges (x >>> 4)
      if n < sz then (RuneError, 1)
      else
        let s1 := s.getD 1 0
        if s1 < accept.1 ∨ accept.2 < s1 then (RuneError, 1)
        else if sz ≤ 2 then (((s0 &&& 0x1F) <<< 6) ||| (s1 &&& 0x3F), 2)
        else
          let s2 := s.getD 2 0
          if s2 < 0x80 ∨ 0xBF < s2 then (RuneError, 1)
          else if sz ≤ 3 then
            (((s0 &&& 0x0F) <<< 12) ||| ((s1 &&& 0x3F) <<< 6) ||| (s2 &&& 0x3F), 3)
          else
            let s3 := s.getD 3 0
            if s3 < 0x80 ∨ 0xBF < s3 then (RuneError, 1)
            else
              (((s0 &&& 0x07) <<< 18) ||| ((s1 &&& 0x3F) <<< 12) ||| ((s2 &&& 0x3F) <<< 6)
                ||| (s3 &&& 0x3F), 4)

/-- `utf8.ValidRune` on an `int32` value. -/
def ValidRune (r : Int) : Bool :=
  if 0 ≤ r ∧ r < 0xD800 then true
  else if 0xDFFF < r ∧ r ≤ 0x10FFFF then true
  else false

/-- The loop of `utf8.ValidString` on the bytes from index `i` on, bounded by `fuel`
iterations (`none` when the bound is exhausted). -/
def ValidStringLoop : Nat → GoString → Option Bool
  | _, [] => some true
  | 0, _ :: _ => none
  | fuel + 1, si :: rest =>
    if si < RuneSelf then ValidStringLoop fuel rest
    else
      let s := si :: rest
      let x := first si
      if x = 0xF1 then some false
      else
        let size := x &&& 7
        if size > s.length then some false
        else
          let accept := acceptRanges (x >>> 4)
          let c1 := s.getD 1 0
          if c1 < accept.1 ∨ accept.2 < c1 then some false
          else if size = 2 then ValidStringLoop fuel (s.drop size)
          else
            let c2 := s.getD 2 0
            if c2 < 0x80 ∨ 0xBF < c2 then some false
            else if size = 3 then ValidStringLoop fuel (s.drop size)
            else
              let c3 := s.getD 3 0
              if c3 < 0x80 ∨ 0xBF < c3 then some false
              else ValidStringLoop fuel (s.drop size)

/-- `utf8.ValidString`: whether `s` consists entirely of valid UTF-8-encoded runes. -/
def ValidString (s : GoString) : Option Bool := ValidStringLoop s.length s

end utf8

/-- The `int32` value with the same low 32 bits as `n`. -/
def toInt32 (n : Nat) : Int :=
  if n % 2 ^ 32 < 2 ^ 31 then (n % 2 ^ 32 : Nat) else ((n % 2 ^ 32 : Nat) : Int) - 2 ^ 32

/-- The conversion `string(r)` of a rune to a string: the UTF-8 encoding of `r`, and the
encoding of U+FFFD for a value that is not a valid code point (`runtime.encoderune`).
`byte(x)` is `x % 256`. -/
def runeToString (r : Nat) : GoString :=
  let i := r % 2 ^ 32
  if i ≤ 0x7F then [r % 256]
  else if i ≤ 0x7FF then
    [0xC0 ||| ((r >>> 6) % 256), 0x80 ||| ((r % 256) &&& 0x3F)]
  else if i > 0x10FFFF ∨ (0xD800 ≤ i ∧ i ≤ 0xDFFF) then [0xEF, 0xBF, 0xBD]
  else if i ≤ 0xFFFF then
    [0xE0 ||| ((r >>> 12) % 256), 0x80 ||| (((r >>> 6) % 256) &&& 0x3F),
      0x80 ||| ((r % 256) &&& 0x3F)]
  else
    [0xF0 ||| ((r >>> 18) % 256), 0x80 ||| (((r >>> 12) % 256) &&& 0x3F),
      0x80 ||| (((r >>> 6) % 256) &&& 0x3F), 0x80 ||| ((r % 256) &&& 0x3F)]

/-! ## Package `strconv` -/

/-- Go `error` values returned by `strconv`. -/
inductive GoError where
  | ErrSyntax
  deriving DecidableEq, Repr

deriving instance DecidableEq for Except

namespace strconv

/-- Value of a hexadecimal digit (`strconv.unhex`). -/
def unhex (b : Nat) : Option Nat :=
  if 0x30 ≤ b ∧ b ≤ 0x39 then some (b - 0x30)
  else if 0x61 ≤ b ∧ b ≤ 0x66 then some (b - 0x61 + 10)
  else if 0x41 ≤ b ∧ b ≤ 0x46 then some (b - 0x41 + 10)
  else none

/-- The loop `for j := 0; j < n; j++ { x, ok := unhex(s[j]); ...; v = v<<4 | x }`
of `UnquoteChar`, on the next `n` bytes; `v` is an `int32` kept as its low 32 bits. -/
def hexLoop : Nat → GoString → Nat → Option Nat
  | 0, _, v => some v
  | _ + 1, [], _ => none
  | n + 1, b :: s, v =>
    match unhex b with
    | none => none
    | some x => hexLoop n s (((v <<< 4) ||| x) % 2 ^ 32)

/-- The loop `for j := 0; j < 2; j++ { x := rune(s[j]) - '0'; ...; v = (v << 3) | x }`
of `UnquoteChar`; `x < 0 || x > 7` is `b < '0' || b > '7'`. -/
def octLoop : Nat → GoString → Nat → Option Nat
  | 0, _, v => some v
  | _ + 1, [], _ => none
  | n + 1, b :: s, v =>
    if b < 0x30 ∨ 7 < b - 0x30 then none
    else octLoop n s ((v <<< 3) ||| (b - 0x30))

/-- The case `'x', 'u', 'U'` of the escape switch of `strconv.UnquoteChar`: `n` hex
digits follow, 2 after `x`, 4 after `u` and 8 after `U`. -/
def hexEscape (c : Nat) (s : GoString) : Except GoError (Nat × Bool × GoString) :=
  let n := if c = 0x78 then 2 else if c = 0x75 then 4 else 8
  if s.length < n then .error .ErrSyntax
  else
    match hexLoop n s 0 with
    | none => .error .ErrSyntax
    | some v =>
      if c = 0x78 then .ok (v, false, s.drop n)
      else if utf8.ValidRune (toInt32 v) = false then .error .ErrSyntax
      else .ok (v, true, s.drop n)

/-- The case `'0', ..., '7'` of the escape switch of `strconv.UnquoteChar`: one octal
digit is read already, two more follow. -/
def octEscape (c : Nat) (s : GoString) : Except GoError (Nat × Bool × GoString) :=
  if s.length < 2 then .error .ErrSyntax
  else
    match octLoop 2 s (c - 0x30) with
    | none => .error .ErrSyntax
    | some v => if v > 255 then .error .ErrSyntax else .ok (v, false, s.drop 2)

/-- The "hard case" of `strconv.UnquoteChar`, the switch on the byte `c` after the
backslash; `s` is what follows `c`. -/
def unquoteEscape (c : Nat) (s : GoString) (quote : Nat) :
    Except GoError (Nat × Bool × GoString) :=
  if c = 0x61 then .ok (0x07, false, s)            -- \a
  else if c = 0x62 then .ok (0x08, false, s)       -- \b
  else if c = 0x66 then .ok (0x0C, false, s)       -- \f
  else if c = 0x6E then .ok (0x0A, false, s)       -- \n
  else if c = 0x72 then .ok (0x0D, false, s)       -- \r
  else if c = 0x74 then .ok (0x09, false, s)       -- \t
  else if c = 0x76 then .ok (0x0B, false, s)       -- \v
  else if c = 0x78 ∨ c = 0x75 ∨ c = 0x55 then hexEscape c s      -- \x \u \U
  else if 0x30 ≤ c ∧ c ≤ 0x37 then octEscape c s                 -- \0 .. \7
  else if c = 0x5C then .ok (0x5C, false, s)       -- \\
  else if c = 0x27 ∨ c = 0x22 then                 -- \' \"
    if c ≠ quote then .error .ErrSyntax else .ok (c, false, s)
  else .error .ErrSyntax

/-- `strconv.UnquoteChar(s, quote)`: decodes the first character or escape sequence of
`s`; returns the character value, whether it needs a multibyte encoding, and the rest
of the string, or `ErrSyntax`. -/
def UnquoteChar (s : GoString) (quote : Nat) : Except GoError (Nat × Bool × GoString) :=
  match s with
  | [] => .error .ErrSyntax
  | c :: rest =>
    if c = quote ∧ (quote = 0x27 ∨ quote = 0x22) then .error .ErrSyntax
    else if c ≥ utf8.RuneSelf then
      let rs := utf8.DecodeRuneInString s
      .ok (rs.1, true, s.drop rs.2)
    else if c ≠ 0x5C then .ok (c, false, rest)
    else
      match rest with
      | [] => .error .ErrSyntax
      | c1 :: s1 => unquoteEscape c1 s1 quote

/-- `strconv.contains`: whether the string contains the byte `c`. -/
def contains (s : GoString) (c : Nat) : Bool := decide (c ∈ s)

end strconv

/-! ## Calls, panics and maps -/

/-- Position of a token (`lexer.go`). -/
structure Position where
  Filename : GoString
  Offset : Int
  Line : Int
  Column : Int
  deriving DecidableEq, Repr

/-- A Token returned by a Lexer (`lexer.go`); `Type_` is the field `Type`. -/
structure Token where
  Type_ : Int
  Value : GoString
  Pos : Position
  deriving DecidableEq, Repr

/-- Modelled from the spec: the type `Error` of the package (its file, `errors.go`, is not
among the sources). The spec describes a lex failure as "malformed character/escape at a
Position": an error carries the position it was raised at. Its message is the text
`fmt.Sprintf` builds from a format and its arguments; the rendering is left unapplied and
the message is recorded as the format with its arguments. -/
structure Error where
  Format : String
  Args : List GoString
  Pos : Position
  deriving DecidableEq, Repr

/-- What a Go `panic` carries: a lexer `*Error`, a run-time error of the Go runtime
(index or slice bounds out of range), or any other value. -/
inductive Panic where
  | lexError (e : Error)
  | runtimeError (what : String)
  | other (v : String)
  deriving DecidableEq, Repr

/-- Outcome of a Go call: it returns, it unwinds with a panic value, or the bounded model
of one of its loops ran out of steps. -/
inductive Res (α : Type) where
  | ret (a : α)
  | panic (p : Panic)
  | outOfFuel
  deriving DecidableEq, Repr

/-- Sequencing of Go calls: a panic (or an exhausted bound) skips what follows. -/
def Res.bind {α β : Type} (x : Res α) (k : α → Res β) : Res β :=
  match x with
  | .ret a => k a
  | .panic p => .panic p
  | .outOfFuel => .outOfFuel

/-- Modelled from the spec: `Panicf(pos, format, args...)` of the package (`errors.go` is
not among the sources). "Malformed input signals a Lex failure carrying Position": it
panics with an `*Error` positioned at `pos`. -/
def Panicf {α : Type} (pos : Position) (format : String) (args : List GoString) : Res α :=
  .panic (.lexError { Format := format, Args := args, Pos := pos })

/-- A Go map as an association list (keys are unique in a Go map; a read takes the first
entry with the key). -/
abbrev GoMap (κ ν : Type) := List (κ × ν)

/-- The entry for `k`, if present: the two-value index expression `v, ok := m[k]`. -/
def GoMap.find {κ ν : Type} [DecidableEq κ] (m : GoMap κ ν) (k : κ) : Option ν :=
  match m with
  | [] => none
  | (k1, v) :: rest => if k1 = k then some v else GoMap.find rest k

/-- The index expression `m[k]`: the value stored for `k`, or the zero value of the
element type when `k` is absent. -/
def GoMap.get {κ ν : Type} [DecidableEq κ] (m : GoMap κ ν) (k : κ) (zero : ν) : ν :=
  match GoMap.find m k with
  | some v => v
  | none => zero

/-- The assignment `m[k] = v`. -/
def GoMap.set {κ ν : Type} [DecidableEq κ] (m : GoMap κ ν) (k : κ) (v : ν) : GoMap κ ν :=
  (k, v) :: m.filter (fun p => decide (p.1 ≠ k))

/-! ## `lexer.go`: definitions and lexers -/

/-- EOF represents an end of file: `EOF rune = -(iota + 1)`. -/
def EOF : Int := -1

/-- A Lexer returns tokens from a source and allows peeking (interfaces `SimpleLexer` and
`Lexer`). The object's mutable state is `state`; each method takes the current state and
returns the new one with its result. Errors are reported via panic. -/
structure Lexer (σ : Type) where
  state : σ
  Next : σ → Res (Token × σ)
  Transform : σ → Token → Res (Token × σ)
  Peek : σ → Int → Res (Token × σ)

/-- Definition provides the parser with metadata for a lexer (interface `Definition`);
`ρ` is the type of the `io.Reader` sources. -/
structure Definition (ρ σ : Type) where
  Lex : ρ → Lexer σ
  Symbols : GoMap GoString Int

/-! ## `map.go` -/

/-- TransformerFunc is a function transforming a token; it may panic. -/
abbrev TransformerFunc := Token → Res Token

/-- The struct `mapper`: an embedded `Lexer` and a mapping function. -/
structure mapper (σ : Type) where
  Lexer : Participle.Lexer σ
  f : TransformerFunc

/-- The method `mapper.Transform`: `m.f.Transform(m.Lexer.Transform(t))`. -/
def mapper.Transform {σ : Type} (m : mapper σ) (s : σ) (t : Token) : Res (Token × σ) :=
  (m.Lexer.Transform s t).bind fun r => (m.f r.1).bind fun u => .ret (u, r.2)

/-- The struct `mapper` seen through the interface `Lexer`: `Next` and `Peek` are the
methods promoted from the embedded `Lexer`, `Transform` is the method of `mapper`. -/
def mapper.toLexer {σ : Type} (m : mapper σ) : Participle.Lexer σ :=
  { state := m.Lexer.state
    Next := m.Lexer.Next
    Transform := m.Transform
    Peek := m.Lexer.Peek }

/-- Modelled from the spec: `Upgrade` of the package (`peek.go` is not among the
sources) turns a `SimpleLexer` into a `Lexer` "that allows peeking". A `mapper` embeds a
full `Lexer` and so is one already; on such a value `Upgrade` has nothing to add. -/
def Upgrade {σ : Type} (l : Lexer σ) : Lexer σ := l

/-- Map is a Lexer that applies a mapping function to a Lexer's tokens (`Map` with the
methods `Lex` and `Symbols` of `mapperDef`). -/
def Map {ρ σ : Type} (d : Definition ρ σ) (f : TransformerFunc) : Definition ρ σ :=
  { Lex := fun r => Upgrade (mapper.toLexer { Lexer := d.Lex r, f := f })
    Symbols := d.Symbols }

/-- MakeSymbolTable is a useful helper function for Definition decorator types:
`for _, r := range types { table[sym[r]] = true }`. -/
def MakeSymbolTable {ρ σ : Type} (d : Definition ρ σ) (types : List GoString) :
    GoMap Int Bool :=
  types.foldl (fun table r => GoMap.set table (GoMap.get d.Symbols r 0) true) []

/-- The loop of `unquote`: `for s != "" { value, _, tail, err := strconv.UnquoteChar(s,
quote); ...; s = tail; out += string(value) }`, bounded by `fuel` iterations. -/
def unquoteLoop (quote : Nat) : Nat → GoString → GoString → Res (Except GoError GoString)
  | _, [], out => .ret (.ok out)
  | 0, _ :: _, _ => .outOfFuel
  | fuel + 1, c :: s, out =>
    match strconv.UnquoteChar (c :: s) quote with
    | .error err => .ret (.error err)
    | .ok (value, _, tail) => unquoteLoop quote fuel tail (out ++ runeToString value)

/-- The function `unquote` of `map.go`. `s[0]` panics on the empty string and
`s[1 : len(s)-1]` panics on a string of one byte. The loop is run with as many
iterations as the body has bytes. -/
def unquote (s : GoString) : Res (Except GoError GoString) :=
  match s with
  | [] => .panic (.runtimeError "index out of range")
  | quote :: _ =>
    if s.length - 1 < 1 then .panic (.runtimeError "slice bounds out of range")
    else
      let body := (s.take (s.length - 1)).drop 1
      unquoteLoop quote body.length body []

namespace strconv

/-- The decoding loop of `strconv.Unquote`: `for len(s) > 0 { c, multibyte, ss, err :=
UnquoteChar(s, quote); ... }`, bounded by `fuel` iterations. A character below `RuneSelf`
or a byte escape is appended as the single byte `byte(c)`, any other character as its
UTF-8 encoding (`utf8.EncodeRune`, the same encoder as the conversion `string(rune)`). -/
def UnquoteLoop (quote : Nat) : Nat → GoString → GoString → Res (Except GoError GoString)
  | _, [], buf => .ret (.ok buf)
  | 0, _ :: _, _ => .outOfFuel
  | fuel + 1, c0 :: s, buf =>
    match UnquoteChar (c0 :: s) quote with
    | .error err => .ret (.error err)
    | .ok (c, multibyte, ss) =>
      let buf1 :=
        if c < utf8.RuneSelf ∨ multibyte = false then buf ++ [c % 256]
        else buf ++ runeToString c
      if quote = 0x27 ∧ ss.length ≠ 0 then .ret (.error .ErrSyntax)
      else UnquoteLoop quote fuel ss buf1

/-- The reference the documentation of `Unquote` names: `strconv.Unquote` of the Go
standard library. It interprets `s` as a single-quoted, double-quoted or backquoted Go
literal and returns the string it quotes. Written in the shape the function had before
it was split into `unquote`/`QuotedPrefix`, with the behaviour of the current one: the
"trivial" case of a double-quoted literal returns the body when it is valid UTF-8
(`utf8.ValidString`) and decodes it otherwise. -/
def Unquote (s : GoString) : Res (Except GoError GoString) :=
  let n := s.length
  if n < 2 then .ret (.error .ErrSyntax)
  else
    let quote := s.getD 0 0
    if quote ≠ s.getD (n - 1) 0 then .ret (.error .ErrSyntax)
    else
      let s := (s.take (n - 1)).drop 1
      if quote = 0x60 then
        if contains s 0x60 then .ret (.error .ErrSyntax)
        else if contains s 0x0D then .ret (.ok (s.filter (fun b => decide (b ≠ 0x0D))))
        else .ret (.ok s)
      else if quote ≠ 0x22 ∧ quote ≠ 0x27 then .ret (.error .ErrSyntax)
      else if contains s 0x0A then .ret (.error .ErrSyntax)
      else
        let loop := UnquoteLoop quote s.length s []
        if contains s 0x5C = false ∧ contains s quote = false then
          if quote = 0x22 then
            match utf8.ValidString s with
            | none => .outOfFuel
            | some true => .ret (.ok s)
            | some false => loop
          else
            let rs := utf8.DecodeRuneInString s
            if rs.2 = s.length ∧ (rs.1 ≠ utf8.RuneError ∨ rs.2 ≠ 1) then .ret (.ok s)
            else loop
        else loop

end strconv

/-- `err.Error()` of a `strconv` error. -/
def GoError.Error : GoError → GoString
  | .ErrSyntax => str "invalid syntax"

/-- The closure `Unquote` passes to `Map`. -/
def unquoteFunc (table : GoMap Int Bool) : TransformerFunc := fun t =>
  if GoMap.get table t.Type_ false = true then
    match unquote t.Value with
    | .ret (.ok value) => .ret { t with Value := value }
    | .ret (.error err) =>
      Panicf t.Pos "invalid quoted string %q: %s" [t.Value, err.Error]
    | .panic p => .panic p
    | .outOfFuel => .outOfFuel
  else .ret t

/-- Unquote applies strconv.Unquote() to tokens of the given types.
Tokens of type "String" will be unquoted if no other types are provided. -/
def Unquote {ρ σ : Type} (d : Definition ρ σ) (types : List GoString) : Definition ρ σ :=
  let types := if types.length = 0 then [str "String"] else types
  let table := MakeSymbolTable d types
  Map d (unquoteFunc table)

/-- The closure `Upper` passes to `Map`; `ToUpper` stands for `strings.ToUpper` of the
Go standard library. -/
def upperFunc (ToUpper : GoString → GoString) (table : GoMap Int Bool) : TransformerFunc :=
  fun token =>
    if GoMap.get table token.Type_ false = true then
      .ret { token with Value := ToUpper token.Value }
    else .ret token

/-- Upper case all tokens of the given type. Useful for case normalisation. -/
def Upper {ρ σ : Type} (ToUpper : GoString → GoString) (d : Definition ρ σ)
    (types : List GoString) : Definition ρ σ :=
  let table := MakeSymbolTable d types
  Map d (upperFunc ToUpper table)

/-! ## A small definition used to instantiate the statements -/

/-- Modelled from the spec: the lexers of the package (`peek.go`, `text_scanner.go`) are
not among the sources, only the interface `Lexer` is. The spec describes a stream bound
to one source: `next()` "consumes and returns the next Token; returns the EOF sentinel
forever once exhausted", `peek(n)` "returns the token n positions ahead of the cursor
without consuming", and `transform` is a step of its own that neither call applies.
The state is the cursor, the tokens of the source not yet consumed; `eof` is the token
returned at the end of the stream; the plain stream transforms nothing. -/
def listLexer (toks : List Token) (eof : Token) : Lexer (List Token) :=
  { state := toks
    Next := fun s => .ret (s.headD eof, s.tail)
    Transform := fun s t => .ret (t, s)
    Peek := fun s n => .ret ((s.drop n.toNat).headD eof, s) }

/-- A definition with the symbol table of Go's `text/scanner` (`EOF = -1`, `Ident = -2`,
..., `String = -6`, `RawString = -7`), lexing every source to the same two tokens. -/
def sampleDef : Definition Unit (List Token) :=
  { Lex := fun _ =>
      listLexer
        [ { Type_ := -2, Value := str "hello", Pos := ⟨[], 0, 1, 1⟩ },
          { Type_ := -6, Value := str "\"a\\tb\"", Pos := ⟨[], 6, 1, 7⟩ } ]
        { Type_ := EOF, Value := [], Pos := ⟨[], 13, 1, 14⟩ }
    Symbols :=
      [ (str "EOF", -1), (str "Ident", -2), (str "Int", -3), (str "Float", -4),
        (str "Char", -5), (str "String", -6), (str "RawString", -7),
        (str "Comment", -8) ] }

/-- ASCII upper-casing, an instance of `strings.ToUpper` on ASCII text. -/
def asciiUpper (s : GoString) : GoString :=
  s.map fun b => if 0x61 ≤ b ∧ b ≤ 0x7A then b - 0x20 else b

/-! ## The text a quoted literal denotes

The reading of a quoted literal the claims are stated against: a body is a sequence of
characters and backslash escapes, each escape stands for one character, and the text is
the UTF-8 encoding of the characters in order. These definitions do not refer to the code.
-/

/-- A Unicode scalar value: a code point outside the surrogate range. -/
def IsScalar (c : Nat) : Prop := c < 0xD800 ∨ (0xDFFF < c ∧ c ≤ 0x10FFFF)

/-- The UTF-8 encoding of a scalar value, by the arithmetic of RFC 3629. -/
def utf8Bytes (c : Nat) : GoString :=
  if c < 0x80 then [c]
  else if c < 0x800 then [0xC0 + c / 64, 0x80 + c % 64]
  else if c < 0x10000 then [0xE0 + c / 4096, 0x80 + c / 64 % 64, 0x80 + c % 64]
  else [0xF0 + c / 262144, 0x80 + c / 4096 % 64, 0x80 + c / 64 % 64, 0x80 + c % 64]

/-- `HexDigit b d`: the byte `b` is a hexadecimal digit of value `d`. -/
inductive HexDigit : Nat → Nat → Prop
  | digit (d : Nat) (h : d < 10) : HexDigit (0x30 + d) d
  | lower (d : Nat) (h : d < 6) : HexDigit (0x61 + d) (10 + d)
  | upper (d : Nat) (h : d < 6) : HexDigit (0x41 + d) (10 + d)

/-- The number written by the digits `ds`, most significant first, from `v` on. -/
def digitsValue (base : Nat) (v : Nat) (ds : List Nat) : Nat :=
  ds.foldl (fun a d => base * a + d) v

/-- `Escape quote e c`: the bytes `e` are a backslash escape sequence of a literal
delimited by `quote`, and `c` is the character it denotes. -/
inductive Escape (quote : Nat) : GoString → Nat → Prop
  | bell : Escape quote [0x5C, 0x61] 0x07
  | backspace : Escape quote [0x5C, 0x62] 0x08
  | formFeed : Escape quote [0x5C, 0x66] 0x0C
  | lineFeed : Escape quote [0x5C, 0x6E] 0x0A
  | carriageReturn : Escape quote [0x5C, 0x72] 0x0D
  | tab : Escape quote [0x5C, 0x74] 0x09
  | verticalTab : Escape quote [0x5C, 0x76] 0x0B
  | backslash : Escape quote [0x5C, 0x5C] 0x5C
  | delimiter (h : quote = 0x27 ∨ quote = 0x22) : Escape quote [0x5C, quote] quote
  | octal (a b c : Nat) (ha : a < 8) (hb : b < 8) (hc : c < 8)
      (h : 64 * a + 8 * b + c ≤ 255) :
      Escape quote [0x5C, 0x30 + a, 0x30 + b, 0x30 + c] (64 * a + 8 * b + c)
  | hex (hs ds : List Nat) (h : List.Forall₂ HexDigit hs ds) (hl : ds.length = 2) :
      Escape quote (0x5C :: 0x78 :: hs) (digitsValue 16 0 ds)
  | unicode4 (hs ds : List Nat) (h : List.Forall₂ HexDigit hs ds) (hl : ds.length = 4)
      (hv : IsScalar (digitsValue 16 0 ds)) :
      Escape quote (0x5C :: 0x75 :: hs) (digitsValue 16 0 ds)
  | unicode8 (hs ds : List Nat) (h : List.Forall₂ HexDigit hs ds) (hl : ds.length = 8)
      (hv : IsScalar (digitsValue 16 0 ds)) :
      Escape quote (0x5C :: 0x55 :: hs) (digitsValue 16 0 ds)

/-- `Denotes quote body text`: `body` is a well-formed body of a literal delimited by
`quote`, and `text` is what it denotes: every character other than the backslash and
the delimiter stands for itself, every escape sequence for the character it denotes. -/
inductive Denotes (quote : Nat) : GoString → GoString → Prop
  | done : Denotes quote [] []
  | char (c : Nat) (rest text : GoString) (hc : IsScalar c) (hb : c ≠ 0x5C)
      (hq : c ≠ quote) (h : Denotes quote rest text) :
      Denotes quote (utf8Bytes c ++ rest) (utf8Bytes c ++ text)
  | escape (e : GoString) (c : Nat) (rest text : GoString) (he : Escape quote e c)
      (h : Denotes quote rest text) :
      Denotes quote (e ++ rest) (utf8Bytes c ++ text)

/-- `Utf8Text s`: the bytes `s` are the UTF-8 encodings of a sequence of characters. -/
inductive Utf8Text : GoString → Prop
  | done : Utf8Text []
  | char (c : Nat) (rest : GoString) (hc : IsScalar c) (h : Utf8Text rest) :
      Utf8Text (utf8Bytes c ++ rest)

/-- `ByteEscapeFree s`: no backslash of `s` is directly followed by `x`, `2` or `3`, the
bytes that open the escapes `\xHH` and `\2OO`, `\3OO`; these are the escapes that can
stand for a single byte of value `0x80` or more. -/
def ByteEscapeFree (s : GoString) : Prop :=
  List.Chain' (fun a b => a = 0x5C → b ≠ 0x78 ∧ b ≠ 0x32 ∧ b ≠ 0x33) s

/-! ## `lexer.go`: `ConsumeAll`, `SymbolsByRune`, `Position.String` -/

/-- EOF returns true if this Token is an EOF token. -/
def Token.EOF (t : Token) : Bool := decide (t.Type_ = Participle.EOF)

/-- A run of the body of `ConsumeAll`, up to the moment it stops: the named result
`tokens` at that moment, the number of calls of `Next` made, and what stopped the body,
its `return` statement (`ret ()`), a panic, or the bound on the iterations. -/
structure ConsumeRun where
  tokens : List Token
  calls : Nat
  stop : Res Unit
  deriving DecidableEq, Repr

/-- The body of `ConsumeAll`: `for { token := lexer.Next(); if transform { token =
lexer.Transform(token) }; tokens = append(tokens, token); if token.Type == EOF { return }
}`, bounded by `fuel` iterations, from the lexer state `s`. -/
def ConsumeAllBody {σ : Type} (lexer : Lexer σ) (transform : Bool) :
    Nat → σ → List Token → Nat → ConsumeRun
  | 0, _, tokens, calls => { tokens := tokens, calls := calls, stop := .outOfFuel }
  | fuel + 1, s, tokens, calls =>
    match lexer.Next s with
    | .panic p => { tokens := tokens, calls := calls + 1, stop := .panic p }
    | .outOfFuel => { tokens := tokens, calls := calls + 1, stop := .outOfFuel }
    | .ret (token, s1) =>
      match (if transform = true then lexer.Transform s1 token else .ret (token, s1)) with
      | .panic p => { tokens := tokens, calls := calls + 1, stop := .panic p }
      | .outOfFuel => { tokens := tokens, calls := calls + 1, stop := .outOfFuel }
      | .ret (token1, s2) =>
        if token1.Type_ = EOF then
          { tokens := tokens ++ [token1], calls := calls + 1, stop := .ret () }
        else ConsumeAllBody lexer transform fuel s2 (tokens ++ [token1]) (calls + 1)

/-- ConsumeAll reads all tokens from a Lexer. The results are the named results `tokens`
and `err` when the function returns. The deferred function recovers a panic: with a
panic value that is an `*Error` it sets `err` and the function returns, with any other
value it panics again with that value. (A nil panic value is not among the values of
`Panic`: since Go 1.21 `panic(nil)` raises a run-time error.) -/
def ConsumeAll {σ : Type} (lexer : Lexer σ) (transform : Bool) (fuel : Nat) :
    Res (List Token × Option Error) :=
  let run := ConsumeAllBody lexer transform fuel lexer.state [] 0
  match run.stop with
  | .ret () => .ret (run.tokens, none)
  | .panic (.lexError msgErr) => .ret (run.tokens, some msgErr)
  | .panic msg => .panic msg
  | .outOfFuel => .outOfFuel

/-- SymbolsByRune: `for s, r := range def.Symbols() { out[r] = s }`. A `range` over a
map visits its entries in an unspecified order; the order of the list `Symbols` is
the order of the visit, and every order of the entries is the order of some list. -/
def SymbolsByRune {ρ σ : Type} (d : Definition ρ σ) : GoMap Int GoString :=
  d.Symbols.foldl (fun out p => GoMap.set out p.2 p.1) []

/-- An operand of `fmt.Sprintf`: a string or an `int`. -/
inductive FmtArg where
  | string (s : GoString)
  | int (i : Int)
  deriving DecidableEq, Repr

/-- The decimal digits of a natural number, most significant first. -/
def natDecimal (n : Nat) : GoString := (Nat.toDigits 10 n).map Char.toNat

/-- The verb `%d` of package `fmt` on an `int`: a minus sign for a negative number and
the decimal digits of its magnitude. -/
def decimal (i : Int) : GoString :=
  if i < 0 then 0x2D :: natDecimal i.natAbs else natDecimal i.toNat

/-- `fmt.Sprintf` on formats made of plain text, `%%`, `%s` with a string operand and
`%d` with an `int` operand, the formats of this package; `none` for a format or
operands outside this fragment. -/
def Sprintf : GoString → List FmtArg → Option GoString
  | [], [] => some []
  | [], _ :: _ => none
  | c :: rest, args =>
    if c ≠ 0x25 then (Sprintf rest args).map (fun out => c :: out)
    else
      match rest, args with
      | 0x25 :: rest1, args => (Sprintf rest1 args).map (fun out => 0x25 :: out)
      | 0x73 :: rest1, .string s :: args1 => (Sprintf rest1 args1).map (fun out => s ++ out)
      | 0x64 :: rest1, .int i :: args1 =>
        (Sprintf rest1 args1).map (fun out => decimal i ++ out)
      | _, _ => none

/-- The method `String` of `Position`:
`fmt.Sprintf("%s:%d:%d", filename, p.Line, p.Column)` with `filename` the field
`Filename`, or `"<source>"` when that is empty. -/
def Position.String (p : Position) : GoString :=
  let filename := if p.Filename = [] then str "<source>" else p.Filename
  (Sprintf (str "%s:%d:%d") [.string filename, .int p.Line, .int p.Column]).getD []

/-- The results of `n` successive calls of `Next` from the state `s`, when none of them
panics: the tokens returned, in order, and the state after the last call. -/
def Lexer.nexts {σ : Type} (l : Lexer σ) : Nat → σ → Option (List Token × σ)
  | 0, s => some ([], s)
  | n + 1, s =>
    match l.Next s with
    | .ret (t, s1) => (Lexer.nexts l n s1).map (fun r => (t :: r.1, r.2))
    | _ => none

/-- The results of `n` successive reads from the state `s`, a read being a call of `Next`
followed, when `transform` is set, by a call of `Transform` on the token it returned,
when none of the calls panics: the tokens read, in order, and the state after the last.
-/
def Lexer.reads {σ : Type} (l : Lexer σ) (transform : Bool) : Nat → σ →
    Option (List Token × σ)
  | 0, s => some ([], s)
  | n + 1, s =>
    match l.Next s with
    | .ret (t, s1) =>
      match (if transform = true then l.Transform s1 t else .ret (t, s1)) with
      | .ret (t1, s2) => (Lexer.reads l transform n s2).map (fun r => (t1 :: r.1, r.2))
      | _ => none
    | _ => none

/-- A definition whose second token is a string literal with the invalid escape `\q`. -/
def brokenDef : Definition Unit (List Token) :=
  { Lex := fun _ =>
      listLexer
        [ { Type_ := -2, Value := str "hello", Pos := ⟨[], 0, 1, 1⟩ },
          { Type_ := -6, Value := str "\"a\\qb\"", Pos := ⟨[], 6, 1, 7⟩ },
          { Type_ := -2, Value := str "world", Pos := ⟨[], 13, 1, 14⟩ } ]
        { Type_ := EOF, Value := [], Pos := ⟨[], 18, 1, 19⟩ }
    Symbols := sampleDef.Symbols }

/-! ## Properties -/

/-! ### Maps -/

theorem GoMap.find_filter_ne {κ ν : Type} [DecidableEq κ] (m : GoMap κ ν) (k k1 : κ)
    (h : k ≠ k1) :
    GoMap.find (m.filter (fun p => decide (p.1 ≠ k))) k1 = GoMap.find m k1 := by
  induction m with
  | nil => rfl
  | cons p rest ih =>
    obtain ⟨a, b⟩ := p
    simp only [decide_not] at ih
    by_cases hak : a = k
    · subst hak
      simp [List.filter, GoMap.find, h, ih]
    · simp [List.filter, GoMap.find, hak, ih]

theorem GoMap.find_set {κ ν : Type} [DecidableEq κ] (m : GoMap κ ν) (k k1 : κ) (v : ν) :
    GoMap.find (GoMap.set m k v) k1 = if k = k1 then some v else GoMap.find m k1 := by
  by_cases h : k = k1
  · simp [GoMap.set, GoMap.find, h]
  · have hf := GoMap.find_filter_ne m k k1 h
    simp only [decide_not] at hf
    simp [GoMap.set, GoMap.find, h, hf]

theorem GoMap.get_set {κ ν : Type} [DecidableEq κ] (m : GoMap κ ν) (k k1 : κ) (v z : ν) :
    GoMap.get (GoMap.set m k v) k1 z = if k = k1 then v else GoMap.get m k1 z := by
  unfold GoMap.get
  rw [GoMap.find_set]
  by_cases h : k = k1 <;> simp [h]

theorem GoMap.get_of_find {κ ν : Type} [DecidableEq κ] (m : GoMap κ ν) (k : κ) (v z : ν)
    (h : GoMap.find m k = some v) : GoMap.get m k z = v := by
  simp [GoMap.get, h]

/-- The table built by the loop of `MakeSymbolTable`, started from any table. -/
theorem foldl_table_get (sym : GoMap GoString Int) (types : List GoString)
    (init : GoMap Int Bool) (k : Int) :
    GoMap.get (types.foldl (fun table r => GoMap.set table (GoMap.get sym r 0) true) init)
        k false = true
      ↔ GoMap.get init k false = true ∨ ∃ n ∈ types, GoMap.get sym n 0 = k := by
  induction types generalizing init with
  | nil => simp
  | cons n rest ih =>
    rw [List.foldl_cons, ih, GoMap.get_set]
    by_cases h : GoMap.get sym n 0 = k
    · simp [h]
    · simp only [h, if_false, List.mem_cons, exists_eq_or_imp, false_or]

/-- `MakeSymbolTable(def, types...)[k]` is true exactly for the runes `sym[name]` of the
given names (`sym[name]` being the zero rune for a name the table lacks). -/
theorem MakeSymbolTable_get {ρ σ : Type} (d : Definition ρ σ) (types : List GoString)
    (k : Int) :
    GoMap.get (MakeSymbolTable d types) k false = true
      ↔ ∃ n ∈ types, GoMap.get d.Symbols n 0 = k := by
  unfold MakeSymbolTable
  rw [foldl_table_get]
  simp [GoMap.get, GoMap.find]

/-- With every name present in the symbol table, the selected runes are the table's
entries for the names. -/
theorem MakeSymbolTable_get_present {ρ σ : Type} (d : Definition ρ σ)
    (types : List GoString) (k : Int)
    (hpresent : ∀ n ∈ types, ∃ r, GoMap.find d.Symbols n = some r) :
    GoMap.get (MakeSymbolTable d types) k false = true
      ↔ ∃ n ∈ types, GoMap.find d.Symbols n = some k := by
  rw [MakeSymbolTable_get]
  constructor
  · rintro ⟨n, hn, hk⟩
    obtain ⟨r, hr⟩ := hpresent n hn
    refine ⟨n, hn, ?_⟩
    rw [GoMap.get_of_find _ _ _ _ hr] at hk
    rw [hr, hk]
  · rintro ⟨n, hn, hk⟩
    exact ⟨n, hn, GoMap.get_of_find _ _ _ _ hk⟩

/-! ### `Map` -/

/-- The `Transform` of a lexer made by `Map(def, f)`. -/
theorem Map_Lex_Transform {ρ σ : Type} (d : Definition ρ σ) (f : TransformerFunc) (r : ρ)
    (s : σ) (t : Token) :
    ((Map d f).Lex r).Transform s t
      = ((d.Lex r).Transform s t).bind (fun x => (f x.1).bind fun u => .ret (u, x.2)) :=
  rfl

/-- C1. Transform composition is innermost-first: the `Transform` of a lexer made by
`Map(def, f)` is `f` applied to the result of the wrapped lexer's `Transform` (a panic of
the wrapped `Transform` skips `f`), and for `Map(Map(d, f), g)` the result is
`g(f(T_d(t)))`, the lexer state being the one the wrapped `Transform` leaves. -/
theorem C1_map_transform_innermost_first {ρ σ : Type} (d : Definition ρ σ)
    (f g : TransformerFunc) (r : ρ) (s : σ) (t : Token) :
    ((Map d f).Lex r).Transform s t
        = ((d.Lex r).Transform s t).bind (fun x => (f x.1).bind fun u => .ret (u, x.2))
      ∧ ((Map (Map d f) g).Lex r).Transform s t
        = ((d.Lex r).Transform s t).bind
            (fun x => (f x.1).bind fun u => (g u).bind fun v => .ret (v, x.2)) := by
  refine ⟨rfl, ?_⟩
  rw [Map_Lex_Transform, Map_Lex_Transform]
  cases h : (d.Lex r).Transform s t with
  | ret x =>
    simp only [Res.bind]
    cases hf : f x.1 <;> simp [Res.bind]
  | panic p => rfl
  | outOfFuel => rfl

/-- C2. The mapping function of `Map(def, f)` is not applied to consumed or peeked
tokens: the lexer made by wrapping an inner lexer starts in the inner lexer's state and
its `Next()` and `Peek(n)` are the inner lexer's, whatever `f` is. -/
theorem C2_map_next_peek_are_inner {ρ σ : Type} (d : Definition ρ σ)
    (f : TransformerFunc) (r : ρ) (s : σ) (n : Int) :
    ((Map d f).Lex r).state = (d.Lex r).state
      ∧ ((Map d f).Lex r).Next s = (d.Lex r).Next s
      ∧ ((Map d f).Lex r).Peek s n = (d.Lex r).Peek s n :=
  ⟨rfl, rfl, rfl⟩

/-! ### `Upper` -/

/-- C8. `Upper` upper-cases exactly the tokens of the named types: with every given name
present in the symbol table, the mapping function returns `t` with `Value` upper-cased
when `t.Type` is the rune of one of the names and `t` itself otherwise; it always
returns, with `Type` and `Pos` as in `t`; and it is the function the lexers of
`Upper(def, types...)` apply after the wrapped `Transform`. -/
theorem C8_upper_exactly_named_types {ρ σ : Type} (ToUpper : GoString → GoString)
    (d : Definition ρ σ) (types : List GoString) (t : Token)
    (hpresent : ∀ n ∈ types, ∃ r, GoMap.find d.Symbols n = some r) :
    ((∃ n ∈ types, GoMap.find d.Symbols n = some t.Type_) →
        upperFunc ToUpper (MakeSymbolTable d types) t
          = .ret { t with Value := ToUpper t.Value })
      ∧ ((¬ ∃ n ∈ types, GoMap.find d.Symbols n = some t.Type_) →
        upperFunc ToUpper (MakeSymbolTable d types) t = .ret t)
      ∧ (∃ u, upperFunc ToUpper (MakeSymbolTable d types) t = .ret u
          ∧ u.Type_ = t.Type_ ∧ u.Pos = t.Pos)
      ∧ (∀ (r : ρ) (s : σ), ((Upper ToUpper d types).Lex r).Transform s t
          = ((d.Lex r).Transform s t).bind (fun x =>
              (upperFunc ToUpper (MakeSymbolTable d types) x.1).bind
                fun u => .ret (u, x.2))) := by
  have hsel := MakeSymbolTable_get_present d types t.Type_ hpresent
  refine ⟨fun h => ?_, fun h => ?_, ?_, fun r s => rfl⟩
  · simp [upperFunc, hsel.mpr h]
  · have : ¬ GoMap.get (MakeSymbolTable d types) t.Type_ false = true :=
      fun hc => h (hsel.mp hc)
    simp [upperFunc, this]
  · by_cases hc : GoMap.get (MakeSymbolTable d types) t.Type_ false = true
    · exact ⟨{ t with Value := ToUpper t.Value }, by simp [upperFunc, hc], rfl, rfl⟩
    · exact ⟨t, by simp [upperFunc, hc], rfl, rfl⟩

theorem C8_upper_exactly_named_types_witness :
    (∀ n ∈ [str "Ident"], ∃ r, GoMap.find sampleDef.Symbols n = some r)
      ∧ upperFunc asciiUpper (MakeSymbolTable sampleDef [str "Ident"])
          { Type_ := -2, Value := str "hello", Pos := ⟨[], 0, 1, 1⟩ }
        = .ret { Type_ := -2, Value := str "HELLO", Pos := ⟨[], 0, 1, 1⟩ } :=
  have hp : ∀ n ∈ [str "Ident"], ∃ r, GoMap.find sampleDef.Symbols n = some r := by
    intro n hn
    rw [List.mem_singleton] at hn
    subst hn
    exact ⟨-2, by decide⟩
  ⟨hp, (C8_upper_exactly_named_types asciiUpper sampleDef [str "Ident"]
      { Type_ := -2, Value := str "hello", Pos := ⟨[], 0, 1, 1⟩ } hp).1
      ⟨str "Ident", by simp, by decide⟩⟩

/-! ### `Unquote`: selection of tokens -/

/-- C9. Tokens of type "String" are unquoted if no other types are provided:
`Unquote(def)` with an empty list of types is `Unquote(def, "String")`, and so are the
transforms of their lexers on every token. -/
theorem C9_unquote_defaults_to_String {ρ σ : Type} (d : Definition ρ σ) :
    Unquote d [] = Unquote d [str "String"]
      ∧ ∀ (r : ρ) (s : σ) (t : Token),
          ((Unquote d []).Lex r).Transform s t
            = ((Unquote d [str "String"]).Lex r).Transform s t :=
  ⟨rfl, fun _ _ _ => rfl⟩

/-- The mapping function of `Unquote` returns a token only with `Type` and `Pos`
unchanged. -/
theorem unquoteFunc_ret (table : GoMap Int Bool) (t u : Token)
    (h : unquoteFunc table t = .ret u) : u.Type_ = t.Type_ ∧ u.Pos = t.Pos := by
  unfold unquoteFunc at h
  split at h
  · split at h
    · cases h; exact ⟨rfl, rfl⟩
    · simp [Panicf] at h
    · cases h
    · cases h
  · cases h; exact ⟨rfl, rfl⟩

/-- C10. `Unquote` touches only the `Value` of tokens of the given types. With `types1`
the given names (or "String" when none is given): a token whose `Type` is not the rune
`sym[name]` of any of the names is returned unchanged, so the transform cannot fail on
it; whenever the mapping function returns a token, its `Type` and `Pos` are those of
the input; and this function is what the lexers of `Unquote(def, types...)` apply after
the wrapped `Transform`. -/
theorem C10_unquote_touches_only_selected_values {ρ σ : Type} (d : Definition ρ σ)
    (types : List GoString) (t : Token) :
    ((¬ ∃ n ∈ (if types.length = 0 then [str "String"] else types),
          GoMap.get d.Symbols n 0 = t.Type_) →
        unquoteFunc (MakeSymbolTable d (if types.length = 0 then [str "String"] else types))
          t = .ret t)
      ∧ (∀ u, unquoteFunc
            (MakeSymbolTable d (if types.length = 0 then [str "String"] else types)) t
            = .ret u → u.Type_ = t.Type_ ∧ u.Pos = t.Pos)
      ∧ (∀ (r : ρ) (s : σ), ((Unquote d types).Lex r).Transform s t
          = ((d.Lex r).Transform s t).bind (fun x =>
              (unquoteFunc
                (MakeSymbolTable d (if types.length = 0 then [str "String"] else types))
                x.1).bind fun u => .ret (u, x.2))) := by
  refine ⟨fun h => ?_, fun u hu => unquoteFunc_ret _ t u hu, fun r s => rfl⟩
  have : ¬ GoMap.get (MakeSymbolTable d (if types.length = 0 then [str "String"] else types))
      t.Type_ false = true := fun hc => h ((MakeSymbolTable_get d _ t.Type_).mp hc)
  unfold unquoteFunc
  rw [if_neg this]

theorem C10_unquote_touches_only_selected_values_witness :
    (¬ ∃ n ∈ (if ([] : List GoString).length = 0 then [str "String"] else []),
          GoMap.get sampleDef.Symbols n 0 = (-2 : Int))
      ∧ unquoteFunc (MakeSymbolTable sampleDef
            (if ([] : List GoString).length = 0 then [str "String"] else []))
          { Type_ := -2, Value := str "hello", Pos := ⟨[], 0, 1, 1⟩ }
        = .ret { Type_ := -2, Value := str "hello", Pos := ⟨[], 0, 1, 1⟩ } :=
  have hn : ¬ ∃ n ∈ (if ([] : List GoString).length = 0 then [str "String"] else []),
      GoMap.get sampleDef.Symbols n 0 = (-2 : Int) := by
    simp only [List.length_nil, if_true, List.mem_singleton, exists_eq_left]
    decide
  ⟨hn, (C10_unquote_touches_only_selected_values sampleDef []
      { Type_ := -2, Value := str "hello", Pos := ⟨[], 0, 1, 1⟩ }).1 hn⟩


/-! ### `utf8.DecodeRuneInString` and `strconv.UnquoteChar`: what is consumed -/

/-- On a non-empty string `DecodeRuneInString` reports a width of at least one byte and
at most the length of the string. -/
theorem utf8.DecodeRuneInString_size (s : GoString) (h : s ≠ []) :
    1 ≤ (utf8.DecodeRuneInString s).2 ∧ (utf8.DecodeRuneInString s).2 ≤ s.length := by
  have hlen : 1 ≤ s.length := by
    cases s with
    | nil => exact absurd rfl h
    | cons a l => simp
  have hx : ∀ b, utf8.first b &&& 7 ≤ 4 ∧
      (utf8.first b < 0xF0 → 2 ≤ utf8.first b &&& 7) ∧
      (utf8.first b &&& 7 ≤ 2 → utf8.first b < 0xF0 → utf8.first b &&& 7 = 2) ∧
      (utf8.first b &&& 7 ≤ 3 → ¬ utf8.first b &&& 7 ≤ 2 → utf8.first b &&& 7 = 3) ∧
      (¬ utf8.first b &&& 7 ≤ 3 → utf8.first b &&& 7 = 4) := by
    intro b
    unfold utf8.first
    repeat' split
    all_goals decide
  obtain ⟨h4, h2, e2, e3, e4⟩ := hx (s.getD 0 0)
  unfold utf8.DecodeRuneInString
  simp only []
  split
  · omega
  · split
    · exact ⟨le_refl _, hlen⟩
    · rename_i hlt
      have hlt2 : utf8.first (s.getD 0 0) < 0xF0 := by omega
      split
      · exact ⟨le_refl _, hlen⟩
      · rename_i hn
        split
        · exact ⟨le_refl _, hlen⟩
        · split
          · rename_i hle
            have := e2 hle hlt2
            constructor <;> omega
          · rename_i hnle
            split
            · exact ⟨le_refl _, hlen⟩
            · split
              · rename_i hle3
                have := e3 hle3 hnle
                constructor <;> omega
              · rename_i hnle3
                have := e4 hnle3
                split
                · exact ⟨le_refl _, hlen⟩
                · constructor <;> omega

theorem strconv.hexEscape_tail (c : Nat) (s : GoString) (v : Nat) (mb : Bool)
    (tail : GoString) (h : strconv.hexEscape c s = .ok (v, mb, tail)) :
    ∃ n, n ≤ s.length ∧ tail = s.drop n := by
  unfold strconv.hexEscape at h
  simp only [] at h
  generalize (if c = 0x78 then 2 else if c = 0x75 then 4 else 8) = n at h
  split at h
  · exact absurd h (by simp)
  · rename_i hlen
    split at h
    · exact absurd h (by simp)
    · split at h
      · simp only [Except.ok.injEq, Prod.mk.injEq] at h
        exact ⟨_, by omega, h.2.2.symm⟩
      · split at h
        · exact absurd h (by simp)
        · simp only [Except.ok.injEq, Prod.mk.injEq] at h
          exact ⟨_, by omega, h.2.2.symm⟩

theorem strconv.octEscape_tail (c : Nat) (s : GoString) (v : Nat) (mb : Bool)
    (tail : GoString) (h : strconv.octEscape c s = .ok (v, mb, tail)) :
    ∃ n, n ≤ s.length ∧ tail = s.drop n := by
  unfold strconv.octEscape at h
  split at h
  · exact absurd h (by simp)
  · rename_i hlen
    split at h
    · exact absurd h (by simp)
    · split at h
      · exact absurd h (by simp)
      · simp only [Except.ok.injEq, Prod.mk.injEq] at h
        exact ⟨2, by omega, h.2.2.symm⟩

theorem strconv.unquoteEscape_tail (c : Nat) (s : GoString) (quote v : Nat) (mb : Bool)
    (tail : GoString) (h : strconv.unquoteEscape c s quote = .ok (v, mb, tail)) :
    ∃ n, n ≤ s.length ∧ tail = s.drop n := by
  have zero : ∀ a b, (Except.ok (a, b, s) : Except GoError (Nat × Bool × GoString))
      = .ok (v, mb, tail) → ∃ n, n ≤ s.length ∧ tail = s.drop n := by
    intro a b hab
    simp only [Except.ok.injEq, Prod.mk.injEq] at hab
    exact ⟨0, by omega, by simp [hab.2.2]⟩
  have bad : (Except.error GoError.ErrSyntax : Except GoError (Nat × Bool × GoString))
      = .ok (v, mb, tail) → ∃ n, n ≤ s.length ∧ tail = s.drop n :=
    fun hab => absurd hab (by simp)
  unfold strconv.unquoteEscape at h
  by_cases h0 : c = 0x61
  · rw [if_pos h0] at h; exact zero _ _ h
  rw [if_neg h0] at h
  by_cases h1 : c = 0x62
  · rw [if_pos h1] at h; exact zero _ _ h
  rw [if_neg h1] at h
  by_cases h2 : c = 0x66
  · rw [if_pos h2] at h; exact zero _ _ h
  rw [if_neg h2] at h
  by_cases h3 : c = 0x6E
  · rw [if_pos h3] at h; exact zero _ _ h
  rw [if_neg h3] at h
  by_cases h4 : c = 0x72
  · rw [if_pos h4] at h; exact zero _ _ h
  rw [if_neg h4] at h
  by_cases h5 : c = 0x74
  · rw [if_pos h5] at h; exact zero _ _ h
  rw [if_neg h5] at h
  by_cases h6 : c = 0x76
  · rw [if_pos h6] at h; exact zero _ _ h
  rw [if_neg h6] at h
  by_cases hx : c = 0x78 ∨ c = 0x75 ∨ c = 0x55
  · rw [if_pos hx] at h; exact strconv.hexEscape_tail _ _ _ _ _ h
  rw [if_neg hx] at h
  by_cases ho : 0x30 ≤ c ∧ c ≤ 0x37
  · rw [if_pos ho] at h; exact strconv.octEscape_tail _ _ _ _ _ h
  rw [if_neg ho] at h
  by_cases hb : c = 0x5C
  · rw [if_pos hb] at h; exact zero _ _ h
  rw [if_neg hb] at h
  by_cases hq : c = 0x27 ∨ c = 0x22
  · rw [if_pos hq] at h
    by_cases hcq : c ≠ quote
    · rw [if_pos hcq] at h; exact bad h
    · rw [if_neg hcq] at h; exact zero _ _ h
  · rw [if_neg hq] at h; exact bad h

/-- A successful `UnquoteChar` leaves a proper tail of its input: it consumes at least
one byte and never more than the input has. -/
theorem strconv.UnquoteChar_tail (s : GoString) (quote v : Nat) (mb : Bool)
    (tail : GoString) (h : strconv.UnquoteChar s quote = .ok (v, mb, tail)) :
    ∃ k, 1 ≤ k ∧ k ≤ s.length ∧ tail = s.drop k := by
  unfold strconv.UnquoteChar at h
  split at h
  · exact absurd h (by simp)
  · rename_i c rest
    split at h
    · exact absurd h (by simp)
    · split at h
      · have hs := utf8.DecodeRuneInString_size (c :: rest) (by simp)
        simp only [Except.ok.injEq, Prod.mk.injEq] at h
        exact ⟨_, hs.1, hs.2, h.2.2.symm⟩
      · split at h
        · simp only [Except.ok.injEq, Prod.mk.injEq] at h
          exact ⟨1, le_refl _, by simp, by simp [h.2.2]⟩
        · split at h
          · exact absurd h (by simp)
          · rename_i c1 s1
            obtain ⟨n, hn, ht⟩ := strconv.unquoteEscape_tail _ _ _ _ _ _ h
            exact ⟨n + 2, by omega, by simp; omega, by simp [ht]⟩

/-! ### The loop of `unquote` -/

theorem unquoteLoop_nil (quote fuel : Nat) (out : GoString) :
    unquoteLoop quote fuel [] out = .ret (.ok out) := by
  cases fuel <;> rfl

theorem unquoteLoop_cons (quote fuel c : Nat) (s out : GoString) :
    unquoteLoop quote (fuel + 1) (c :: s) out
      = match strconv.UnquoteChar (c :: s) quote with
        | .error err => .ret (.error err)
        | .ok (value, _, tail) => unquoteLoop quote fuel tail (out ++ runeToString value) :=
  rfl

/-- The loop of `unquote` needs no more iterations than the string has bytes: any two
bounds of at least that many iterations give the same outcome. -/
theorem unquoteLoop_fuel (quote : Nat) (fuel : Nat) :
    ∀ (fuel1 : Nat) (s out : GoString), s.length ≤ fuel → s.length ≤ fuel1 →
      unquoteLoop quote fuel s out = unquoteLoop quote fuel1 s out := by
  induction fuel with
  | zero =>
    intro fuel1 s out h0 _
    have : s = [] := List.length_eq_zero.mp (by omega)
    subst this
    rw [unquoteLoop_nil, unquoteLoop_nil]
  | succ f ih =>
    intro fuel1 s out h0 h1
    cases s with
    | nil => rw [unquoteLoop_nil, unquoteLoop_nil]
    | cons c r =>
      cases fuel1 with
      | zero => simp at h1
      | succ f1 =>
        rw [unquoteLoop_cons, unquoteLoop_cons]
        cases hu : strconv.UnquoteChar (c :: r) quote with
        | error e => rfl
        | ok x =>
          obtain ⟨v, mb, tail⟩ := x
          obtain ⟨k, hk1, hk2, rfl⟩ := strconv.UnquoteChar_tail _ _ _ _ _ hu
          simp only
          apply ih
          · simp only [List.length_drop, List.length_cons] at *; omega
          · simp only [List.length_drop, List.length_cons] at *; omega

/-- With as many iterations as the string has bytes the loop of `unquote` ends: it
returns a string or an error. -/
theorem unquoteLoop_returns (quote : Nat) (fuel : Nat) :
    ∀ (s out : GoString), s.length ≤ fuel →
      ∃ r, unquoteLoop quote fuel s out = .ret r := by
  induction fuel with
  | zero =>
    intro s out h0
    have : s = [] := List.length_eq_zero.mp (by omega)
    subst this
    exact ⟨_, unquoteLoop_nil _ _ _⟩
  | succ f ih =>
    intro s out h0
    cases s with
    | nil => exact ⟨_, unquoteLoop_nil _ _ _⟩
    | cons c r =>
      rw [unquoteLoop_cons]
      cases hu : strconv.UnquoteChar (c :: r) quote with
      | error e => exact ⟨_, rfl⟩
      | ok x =>
        obtain ⟨v, mb, tail⟩ := x
        obtain ⟨k, hk1, hk2, rfl⟩ := strconv.UnquoteChar_tail _ _ _ _ _ hu
        simp only
        apply ih
        simp only [List.length_drop, List.length_cons] at *; omega

/-- On a value of at least two bytes `unquote` runs its loop on the bytes between the
first and the last, with the first byte as the quote. -/
theorem unquote_delimited (quote last : Nat) (body : GoString) :
    unquote (quote :: (body ++ [last])) = unquoteLoop quote body.length body [] := by
  have hb : (List.take ((quote :: (body ++ [last])).length - 1)
      (quote :: (body ++ [last]))).drop 1 = body := by
    have : (quote :: (body ++ [last])).length - 1 = (quote :: body).length := by simp
    rw [this, ← List.cons_append, List.take_left']
    · rfl
    · rfl
  unfold unquote
  simp only [hb]
  rw [if_neg (by simp)]

/-- A value of at least two bytes is a first byte, a body and a last byte. -/
theorem GoString.delimited (s : GoString) (h : 2 ≤ s.length) :
    ∃ quote body last, s = quote :: (body ++ [last]) := by
  cases s with
  | nil => simp at h
  | cons q r =>
    have hr : r ≠ [] := by
      intro h0; subst h0; simp at h
    exact ⟨q, r.dropLast, r.getLast hr, by rw [List.dropLast_append_getLast hr]⟩

/-! ### Single quotes and double quotes -/

theorem strconv.unquoteEscape_quote_indep (c : Nat) (s : GoString) (h1 : c ≠ 0x27)
    (h2 : c ≠ 0x22) (q1 q2 : Nat) :
    strconv.unquoteEscape c s q1 = strconv.unquoteEscape c s q2 := by
  unfold strconv.unquoteEscape
  have hq : ¬ (c = 0x27 ∨ c = 0x22) := by
    rintro (h | h)
    · exact h1 h
    · exact h2 h
  rw [if_neg hq, if_neg hq]

/-- `UnquoteChar` on a string that does not start with an unescaped delimiter. -/
theorem strconv.UnquoteChar_cons (c : Nat) (rest : GoString) (quote : Nat)
    (h : ¬ (c = quote ∧ (quote = 0x27 ∨ quote = 0x22))) :
    strconv.UnquoteChar (c :: rest) quote
      = if c ≥ utf8.RuneSelf then
          .ok ((utf8.DecodeRuneInString (c :: rest)).1, true,
            (c :: rest).drop (utf8.DecodeRuneInString (c :: rest)).2)
        else if c ≠ 0x5C then .ok (c, false, rest)
        else
          match rest with
          | [] => .error .ErrSyntax
          | c1 :: s1 => strconv.unquoteEscape c1 s1 quote := by
  unfold strconv.UnquoteChar
  simp only
  rw [if_neg h]
  rfl

theorem strconv.UnquoteChar_quote_indep (s : GoString) (h1 : 0x27 ∉ s) (h2 : 0x22 ∉ s) :
    strconv.UnquoteChar s 0x27 = strconv.UnquoteChar s 0x22 := by
  cases s with
  | nil => rfl
  | cons c rest =>
    have hc1 : c ≠ 0x27 := fun h => h1 (by simp [h])
    have hc2 : c ≠ 0x22 := fun h => h2 (by simp [h])
    rw [strconv.UnquoteChar_cons c rest 0x27 (fun h => hc1 h.1),
      strconv.UnquoteChar_cons c rest 0x22 (fun h => hc2 h.1)]
    cases rest with
    | nil => rfl
    | cons c1 s1 =>
      have hd1 : c1 ≠ 0x27 := fun h => h1 (by simp [h])
      have hd2 : c1 ≠ 0x22 := fun h => h2 (by simp [h])
      simp only
      rw [strconv.unquoteEscape_quote_indep c1 s1 hd1 hd2 0x27 0x22]

theorem unquoteLoop_quote_indep (fuel : Nat) :
    ∀ (s out : GoString), 0x27 ∉ s → 0x22 ∉ s →
      unquoteLoop 0x27 fuel s out = unquoteLoop 0x22 fuel s out := by
  induction fuel with
  | zero =>
    intro s out _ _
    cases s <;> rfl
  | succ f ih =>
    intro s out h1 h2
    cases s with
    | nil => rfl
    | cons c r =>
      rw [unquoteLoop_cons, unquoteLoop_cons, strconv.UnquoteChar_quote_indep _ h1 h2]
      cases hu : strconv.UnquoteChar (c :: r) 0x22 with
      | error e => rfl
      | ok x =>
        obtain ⟨v, mb, tail⟩ := x
        obtain ⟨k, -, -, rfl⟩ := strconv.UnquoteChar_tail _ _ _ _ _ hu
        simp only
        exact ih _ _ (fun h => h1 (List.mem_of_mem_drop h))
          (fun h => h2 (List.mem_of_mem_drop h))

/-- C4. Single-quoted literals unescape identically to double-quoted ones: for a body
containing neither a single-quote nor a double-quote byte, `unquote` of the body between
single quotes and of the body between double quotes have the same outcome, the same
decoded string or the same error. -/
theorem C4_single_quoted_unescapes_like_double_quoted (body : GoString)
    (h1 : 0x27 ∉ body) (h2 : 0x22 ∉ body) :
    unquote (0x27 :: (body ++ [0x27])) = unquote (0x22 :: (body ++ [0x22])) := by
  rw [unquote_delimited, unquote_delimited]
  exact unquoteLoop_quote_indep _ _ _ h1 h2

theorem C4_single_quoted_unescapes_like_double_quoted_witness :
    unquote (0x27 :: (str "hello\\nworld" ++ [0x27]))
        = unquote (0x22 :: (str "hello\\nworld" ++ [0x22]))
      ∧ unquote (0x27 :: (str "hello\\nworld" ++ [0x27])) = .ret (.ok (str "hello\nworld")) :=
  ⟨C4_single_quoted_unescapes_like_double_quoted (str "hello\\nworld")
      (by decide) (by decide), by decide⟩

/-! ### Values the code mishandles -/

/-- C5 (the code departs from the claim). A backquoted value is not left unescaped by the
mapping function of `Unquote`: on a selected token whose value is the 12-byte body
`hello\nworld` between backquotes, it returns the 11-byte text with a newline in place
of the backslash and the `n`, not the body. -/
theorem C5_backquoted_value_is_unescaped :
    unquoteFunc (MakeSymbolTable sampleDef [str "String"])
        { Type_ := -6, Value := 0x60 :: (str "hello\\nworld" ++ [0x60]),
          Pos := ⟨[], 0, 1, 1⟩ }
      = .ret { Type_ := -6, Value := str "hello\nworld", Pos := ⟨[], 0, 1, 1⟩ }
    ∧ (str "hello\nworld").length = 11
    ∧ (str "hello\\nworld").length = 12
    ∧ str "hello\nworld" ≠ str "hello\\nworld" := by
  refine ⟨by decide, by decide, by decide, by decide⟩

/-- C7 (the code departs from the claim). A selected token whose value is shorter than
two bytes makes the mapping function of `Unquote` fail with a run-time error of the Go
runtime, not with a lexer `Error` carrying the position of the token: the value of one
double quote, and the empty value. -/
theorem C7_short_value_fails_without_position :
    unquoteFunc (MakeSymbolTable sampleDef [str "String"])
        { Type_ := -6, Value := str "\"", Pos := ⟨[], 3, 1, 4⟩ }
      = .panic (.runtimeError "slice bounds out of range")
    ∧ unquoteFunc (MakeSymbolTable sampleDef [str "String"])
        { Type_ := -6, Value := [], Pos := ⟨[], 3, 1, 4⟩ }
      = .panic (.runtimeError "index out of range")
    ∧ ∀ e : Error, unquoteFunc (MakeSymbolTable sampleDef [str "String"])
        { Type_ := -6, Value := str "\"", Pos := ⟨[], 3, 1, 4⟩ }
      ≠ .panic (.lexError e) := by
  have h1 : unquoteFunc (MakeSymbolTable sampleDef [str "String"])
        { Type_ := -6, Value := str "\"", Pos := ⟨[], 3, 1, 4⟩ }
      = .panic (.runtimeError "slice bounds out of range") := by decide
  refine ⟨h1, by decide, fun e he => ?_⟩
  rw [h1] at he
  cases he


/-! ### Bit operations as arithmetic -/

theorem lor_add (a b n : Nat) (ha : 2 ^ n ∣ a) (hb : b < 2 ^ n) : a ||| b = a + b := by
  obtain ⟨k, rfl⟩ := ha
  exact (Nat.mul_add_lt_is_or hb k).symm

theorem lor128 (y : Nat) (h : y < 128) : 128 ||| y = 128 + y :=
  lor_add 128 y 7 (by norm_num) (by norm_num; exact h)

theorem lor192 (y : Nat) (h : y < 64) : 192 ||| y = 192 + y :=
  lor_add 192 y 6 (by norm_num) (by norm_num; exact h)

theorem lor224 (y : Nat) (h : y < 32) : 224 ||| y = 224 + y :=
  lor_add 224 y 5 (by norm_num) (by norm_num; exact h)

theorem lor240 (y : Nat) (h : y < 16) : 240 ||| y = 240 + y :=
  lor_add 240 y 4 (by norm_num) (by norm_num; exact h)

theorem and63 (x : Nat) : x &&& 63 = x % 64 := Nat.and_pow_two_sub_one_eq_mod x 6

theorem and31 (x : Nat) : x &&& 31 = x % 32 := Nat.and_pow_two_sub_one_eq_mod x 5

theorem and15 (x : Nat) : x &&& 15 = x % 16 := Nat.and_pow_two_sub_one_eq_mod x 4

theorem and7 (x : Nat) : x &&& 7 = x % 8 := Nat.and_pow_two_sub_one_eq_mod x 3

theorem shr6 (x : Nat) : x >>> 6 = x / 64 := Nat.shiftRight_eq_div_pow x 6

theorem shr12 (x : Nat) : x >>> 12 = x / 4096 := Nat.shiftRight_eq_div_pow x 12

theorem shr18 (x : Nat) : x >>> 18 = x / 262144 := Nat.shiftRight_eq_div_pow x 18

/-- `(a << n) | b` adds when `b` fits in the `n` low bits. -/
theorem shl_lor (a b n : Nat) (hb : b < 2 ^ n) : (a <<< n) ||| b = a * 2 ^ n + b := by
  rw [Nat.shiftLeft_eq]
  exact lor_add _ _ n (Dvd.intro_left a rfl) hb

/-! ### The encoder of `string(rune)` is UTF-8 -/

theorem runeToString_scalar (c : Nat) (hc : IsScalar c) : runeToString c = utf8Bytes c := by
  unfold IsScalar at hc
  have hlt : c % 2 ^ 32 = c := Nat.mod_eq_of_lt (by omega)
  have m63 : 0x80 ||| ((c % 256) &&& 0x3F) = 0x80 + c % 64 := by
    rw [and63, lor128 (c % 256 % 64) (by omega)]; omega
  have s6 : 0x80 ||| (((c >>> 6) % 256) &&& 0x3F) = 0x80 + c / 64 % 64 := by
    rw [and63, shr6, lor128 (c / 64 % 256 % 64) (by omega)]; omega
  have s12 : 0x80 ||| (((c >>> 12) % 256) &&& 0x3F) = 0x80 + c / 4096 % 64 := by
    rw [and63, shr12, lor128 (c / 4096 % 256 % 64) (by omega)]; omega
  unfold runeToString utf8Bytes
  simp only [hlt, m63, s6, s12]
  by_cases h1 : c ≤ 0x7F
  · have a1 : c < 0x80 := by omega
    simp only [h1, a1, if_true]
    congr 1; omega
  by_cases h2 : c ≤ 0x7FF
  · have a1 : ¬ c < 0x80 := by omega
    have a2 : c < 0x800 := by omega
    have e : 0xC0 ||| ((c >>> 6) % 256) = 0xC0 + c / 64 := by
      rw [shr6, lor192 (c / 64 % 256) (by omega)]; omega
    simp only [h1, h2, a1, a2, if_true, if_false, e]
  by_cases h3 : c ≤ 0xFFFF
  · have a1 : ¬ c < 0x80 := by omega
    have a2 : ¬ c < 0x800 := by omega
    have a3 : c < 0x10000 := by omega
    have a4 : ¬ (c > 0x10FFFF ∨ (0xD800 ≤ c ∧ c ≤ 0xDFFF)) := by omega
    have e : 0xE0 ||| ((c >>> 12) % 256) = 0xE0 + c / 4096 := by
      rw [shr12, lor224 (c / 4096 % 256) (by omega)]; omega
    simp only [h1, h2, h3, a1, a2, a3, a4, if_true, if_false, e]
  · have a1 : ¬ c < 0x80 := by omega
    have a2 : ¬ c < 0x800 := by omega
    have a3 : ¬ c < 0x10000 := by omega
    have a4 : ¬ (c > 0x10FFFF ∨ (0xD800 ≤ c ∧ c ≤ 0xDFFF)) := by omega
    have e : 0xF0 ||| ((c >>> 18) % 256) = 0xF0 + c / 262144 := by
      rw [shr18, lor240 (c / 262144 % 256) (by omega)]; omega
    simp only [h1, h2, h3, a1, a2, a3, a4, if_true, if_false, e]

/-! ### `utf8.DecodeRuneInString` on well-formed sequences -/

theorem utf8.decode2 (b0 b1 : Nat) (rest : GoString) (h0 : 0xC2 ≤ b0 ∧ b0 ≤ 0xDF)
    (h1 : 0x80 ≤ b1 ∧ b1 ≤ 0xBF) :
    utf8.DecodeRuneInString (b0 :: b1 :: rest) = (b0 % 32 * 64 + b1 % 64, 2) := by
  have hf : utf8.first b0 = 0x02 := by
    unfold utf8.first
    simp only [show ¬ b0 < 0x80 by omega, show ¬ b0 < 0xC2 by omega,
      show b0 < 0xE0 by omega, if_true, if_false]
  have hv : ((b0 &&& 0x1F) <<< 6) ||| (b1 &&& 0x3F) = b0 % 32 * 64 + b1 % 64 := by
    rw [and31, and63, shl_lor _ _ 6 (by norm_num; omega)]
    norm_num
  unfold utf8.DecodeRuneInString
  simp only [List.length_cons, List.getD_cons_zero, List.getD_cons_succ, hf, hv]
  have ha : utf8.acceptRanges (2 >>> 4) = (0x80, 0xBF) := by decide
  have h7 : (2 : Nat) &&& 7 = 2 := by decide
  simp only [ha, h7]
  rw [if_neg (by omega), if_neg (by decide), if_neg (by omega), if_neg (by omega),
    if_pos (le_refl _)]

theorem utf8.decode3 (b0 b1 b2 : Nat) (rest : GoString) (h0 : 0xE0 ≤ b0 ∧ b0 ≤ 0xEF)
    (h1 : 0x80 ≤ b1 ∧ b1 ≤ 0xBF) (hlo : b0 = 0xE0 → 0xA0 ≤ b1) (hhi : b0 = 0xED → b1 ≤ 0x9F)
    (h2 : 0x80 ≤ b2 ∧ b2 ≤ 0xBF) :
    utf8.DecodeRuneInString (b0 :: b1 :: b2 :: rest)
      = (b0 % 16 * 4096 + b1 % 64 * 64 + b2 % 64, 3) := by
  have hv : ((b0 &&& 0x0F) <<< 12) ||| ((b1 &&& 0x3F) <<< 6) ||| (b2 &&& 0x3F)
      = b0 % 16 * 4096 + b1 % 64 * 64 + b2 % 64 := by
    rw [and15, and63, and63, Nat.shiftLeft_eq (b1 % 64) 6,
      shl_lor _ _ 12 (by norm_num; omega),
      lor_add _ _ 6 (by norm_num; omega) (by norm_num; omega)]
    norm_num
  have hacc : (utf8.first b0 = 0x13 ∧ b0 = 0xE0) ∨ (utf8.first b0 = 0x23 ∧ b0 = 0xED)
      ∨ (utf8.first b0 = 0x03 ∧ b0 ≠ 0xE0 ∧ b0 ≠ 0xED) := by
    by_cases e0 : b0 = 0xE0
    · left; subst e0; exact ⟨by decide, rfl⟩
    by_cases ed : b0 = 0xED
    · right; left; subst ed; exact ⟨by decide, rfl⟩
    right; right
    refine ⟨?_, e0, ed⟩
    unfold utf8.first
    by_cases hlt : b0 < 0xED
    · simp only [show ¬ b0 < 0x80 by omega, show ¬ b0 < 0xC2 by omega,
        show ¬ b0 < 0xE0 by omega, e0, hlt, if_true, if_false]
    · simp only [show ¬ b0 < 0x80 by omega, show ¬ b0 < 0xC2 by omega,
        show ¬ b0 < 0xE0 by omega, e0, ed, hlt, show b0 < 0xF0 by omega, if_true, if_false]
  unfold utf8.DecodeRuneInString
  simp only [List.length_cons, List.getD_cons_zero, List.getD_cons_succ, hv]
  rcases hacc with ⟨hf, hb⟩ | ⟨hf, hb⟩ | ⟨hf, hb1, hb2⟩
  · have ha : utf8.acceptRanges (0x13 >>> 4) = (0xA0, 0xBF) := by decide
    have h7 : (0x13 : Nat) &&& 7 = 3 := by decide
    have := hlo hb
    simp only [hf, ha, h7]
    rw [if_neg (by omega), if_neg (by decide), if_neg (by omega), if_neg (by omega),
      if_neg (by decide), if_neg (by omega), if_pos (le_refl _)]
  · have ha : utf8.acceptRanges (0x23 >>> 4) = (0x80, 0x9F) := by decide
    have h7 : (0x23 : Nat) &&& 7 = 3 := by decide
    have := hhi hb
    simp only [hf, ha, h7]
    rw [if_neg (by omega), if_neg (by decide), if_neg (by omega), if_neg (by omega),
      if_neg (by decide), if_neg (by omega), if_pos (le_refl _)]
  · have ha : utf8.acceptRanges (0x03 >>> 4) = (0x80, 0xBF) := by decide
    have h7 : (0x03 : Nat) &&& 7 = 3 := by decide
    simp only [hf, ha, h7]
    rw [if_neg (by omega), if_neg (by decide), if_neg (by omega), if_neg (by omega),
      if_neg (by decide), if_neg (by omega), if_pos (le_refl _)]

theorem utf8.decode4 (b0 b1 b2 b3 : Nat) (rest : GoString) (h0 : 0xF0 ≤ b0 ∧ b0 ≤ 0xF4)
    (h1 : 0x80 ≤ b1 ∧ b1 ≤ 0xBF) (hlo : b0 = 0xF0 → 0x90 ≤ b1) (hhi : b0 = 0xF4 → b1 ≤ 0x8F)
    (h2 : 0x80 ≤ b2 ∧ b2 ≤ 0xBF) (h3 : 0x80 ≤ b3 ∧ b3 ≤ 0xBF) :
    utf8.DecodeRuneInString (b0 :: b1 :: b2 :: b3 :: rest)
      = (b0 % 8 * 262144 + b1 % 64 * 4096 + b2 % 64 * 64 + b3 % 64, 4) := by
  have hv : ((b0 &&& 0x07) <<< 18) ||| ((b1 &&& 0x3F) <<< 12) ||| ((b2 &&& 0x3F) <<< 6)
      ||| (b3 &&& 0x3F) = b0 % 8 * 262144 + b1 % 64 * 4096 + b2 % 64 * 64 + b3 % 64 := by
    have e1 : ((b0 % 8) <<< 18) ||| ((b1 % 64) <<< 12)
        = b0 % 8 * 262144 + b1 % 64 * 4096 := by
      rw [Nat.shiftLeft_eq (b1 % 64) 12, shl_lor _ _ 18 (by norm_num; omega)]
      norm_num
    have e2 : (b0 % 8 * 262144 + b1 % 64 * 4096) ||| ((b2 % 64) <<< 6)
        = b0 % 8 * 262144 + b1 % 64 * 4096 + b2 % 64 * 64 := by
      rw [Nat.shiftLeft_eq (b2 % 64) 6,
        lor_add (b0 % 8 * 262144 + b1 % 64 * 4096) (b2 % 64 * 2 ^ 6) 12
          (by norm_num; omega) (by norm_num; omega)]
    have e3 : (b0 % 8 * 262144 + b1 % 64 * 4096 + b2 % 64 * 64) ||| (b3 % 64)
        = b0 % 8 * 262144 + b1 % 64 * 4096 + b2 % 64 * 64 + b3 % 64 :=
      lor_add _ _ 6 (by norm_num; omega) (by norm_num; omega)
    rw [and7, and63, and63, and63, e1, e2, e3]
  have hacc : (utf8.first b0 = 0x34 ∧ b0 = 0xF0) ∨ (utf8.first b0 = 0x44 ∧ b0 = 0xF4)
      ∨ (utf8.first b0 = 0x04 ∧ b0 ≠ 0xF0 ∧ b0 ≠ 0xF4) := by
    by_cases e0 : b0 = 0xF0
    · left; subst e0; exact ⟨by decide, rfl⟩
    by_cases ed : b0 = 0xF4
    · right; left; subst ed; exact ⟨by decide, rfl⟩
    right; right
    refine ⟨?_, e0, ed⟩
    unfold utf8.first
    simp only [show ¬ b0 < 0x80 by omega, show ¬ b0 < 0xC2 by omega,
      show ¬ b0 < 0xE0 by omega, show ¬ b0 = 0xE0 by omega, show ¬ b0 < 0xED by omega,
      show ¬ b0 = 0xED by omega, show ¬ b0 < 0xF0 by omega, e0,
      show b0 < 0xF4 by omega, if_true, if_false]
  unfold utf8.DecodeRuneInString
  simp only [List.length_cons, List.getD_cons_zero, List.getD_cons_succ, hv]
  rcases hacc with ⟨hf, hb⟩ | ⟨hf, hb⟩ | ⟨hf, hb1, hb2⟩
  · have ha : utf8.acceptRanges (0x34 >>> 4) = (0x90, 0xBF) := by decide
    have h7 : (0x34 : Nat) &&& 7 = 4 := by decide
    have := hlo hb
    simp only [hf, ha, h7]
    rw [if_neg (by omega), if_neg (by decide), if_neg (by omega), if_neg (by omega),
      if_neg (by decide), if_neg (by omega), if_neg (by decide), if_neg (by omega)]
  · have ha : utf8.acceptRanges (0x44 >>> 4) = (0x80, 0x8F) := by decide
    have h7 : (0x44 : Nat) &&& 7 = 4 := by decide
    have := hhi hb
    simp only [hf, ha, h7]
    rw [if_neg (by omega), if_neg (by decide), if_neg (by omega), if_neg (by omega),
      if_neg (by decide), if_neg (by omega), if_neg (by decide), if_neg (by omega)]
  · have ha : utf8.acceptRanges (0x04 >>> 4) = (0x80, 0xBF) := by decide
    have h7 : (0x04 : Nat) &&& 7 = 4 := by decide
    simp only [hf, ha, h7]
    rw [if_neg (by omega), if_neg (by decide), if_neg (by omega), if_neg (by omega),
      if_neg (by decide), if_neg (by omega), if_neg (by decide), if_neg (by omega)]

/-- Decoding undoes encoding: `DecodeRuneInString` reads a scalar value back from its
UTF-8 encoding and reports the length of the encoding as the width. -/
theorem utf8.decode_utf8Bytes (c : Nat) (rest : GoString) (hc : IsScalar c) (h : 0x80 ≤ c) :
    utf8.DecodeRuneInString (utf8Bytes c ++ rest) = (c, (utf8Bytes c).length) := by
  unfold IsScalar at hc
  unfold utf8Bytes
  by_cases h2 : c < 0x800
  · simp only [show ¬ c < 0x80 by omega, h2, if_true, if_false, List.cons_append,
      List.nil_append, List.length_cons, List.length_nil]
    rw [utf8.decode2 _ _ _ (by omega) (by omega)]
    congr 1; omega
  by_cases h3 : c < 0x10000
  · simp only [show ¬ c < 0x80 by omega, h2, h3, if_true, if_false, List.cons_append,
      List.nil_append, List.length_cons, List.length_nil]
    rw [utf8.decode3 _ _ _ _ (by omega) (by omega) (by omega) (by omega) (by omega)]
    congr 1; omega
  · simp only [show ¬ c < 0x80 by omega, h2, h3, if_true, if_false, List.cons_append,
      List.nil_append, List.length_cons, List.length_nil]
    rw [utf8.decode4 _ _ _ _ _ (by omega) (by omega) (by omega) (by omega) (by omega)
      (by omega)]
    congr 1; omega


/-! ### `strconv.UnquoteChar` on characters and escape sequences -/

theorem strconv.unhex_of_HexDigit (b d : Nat) (h : HexDigit b d) :
    strconv.unhex b = some d ∧ d < 16 := by
  cases h with
  | digit d h =>
    refine ⟨?_, by omega⟩
    unfold strconv.unhex
    rw [if_pos (by omega)]
    congr 1; omega
  | lower d h =>
    refine ⟨?_, by omega⟩
    unfold strconv.unhex
    rw [if_neg (by omega), if_pos (by omega)]
    congr 1; omega
  | upper d h =>
    refine ⟨?_, by omega⟩
    unfold strconv.unhex
    rw [if_neg (by omega), if_neg (by omega), if_pos (by omega)]
    congr 1; omega

theorem digitsValue_cons (base v d : Nat) (ds : List Nat) :
    digitsValue base v (d :: ds) = digitsValue base (base * v + d) ds := rfl

/-- The hex loop of `UnquoteChar` reads the number the digits write, as long as it fits
in 32 bits. -/
theorem strconv.hexLoop_digits (hs ds : List Nat) (h : List.Forall₂ HexDigit hs ds)
    (rest : GoString) :
    ∀ (v k : Nat), v < 16 ^ k → k + ds.length ≤ 8 →
      strconv.hexLoop ds.length (hs ++ rest) v = some (digitsValue 16 v ds)
        ∧ digitsValue 16 v ds < 16 ^ (k + ds.length) := by
  induction h with
  | nil =>
    intro v k hv _
    exact ⟨rfl, by simpa [digitsValue] using hv⟩
  | @cons b d hs ds hbd _ ih =>
    intro v k hv hk
    obtain ⟨hu, hd⟩ := strconv.unhex_of_HexDigit b d hbd
    have hstep : ((v <<< 4) ||| d) % 2 ^ 32 = 16 * v + d := by
      rw [shl_lor v d 4 (by norm_num; omega)]
      have h1 : 16 ^ (k + 1) ≤ 16 ^ 8 := Nat.pow_le_pow_right (by norm_num) (by
        simp only [List.length_cons] at hk; omega)
      have h2 : 16 ^ (k + 1) = 16 * 16 ^ k := by ring
      have h3 : (16 : Nat) ^ 8 = 2 ^ 32 := by norm_num
      rw [Nat.mod_eq_of_lt (by norm_num at h1 h3 ⊢; omega)]
      norm_num; omega
    have hv1 : 16 * v + d < 16 ^ (k + 1) := by
      have h2 : 16 ^ (k + 1) = 16 * 16 ^ k := by ring
      omega
    obtain ⟨e1, e2⟩ := ih (16 * v + d) (k + 1) hv1 (by
      simp only [List.length_cons] at hk; omega)
    refine ⟨?_, ?_⟩
    · simp only [List.length_cons, List.cons_append, strconv.hexLoop, hu, hstep]
      exact e1
    · rw [digitsValue_cons]
      simpa [List.length_cons, Nat.add_assoc, Nat.add_comm 1] using e2

theorem toInt32_scalar (v : Nat) (h : IsScalar v) :
    utf8.ValidRune (toInt32 v) = true := by
  unfold IsScalar at h
  have hm : v % 2 ^ 32 = v := Nat.mod_eq_of_lt (by omega)
  have ht : toInt32 v = (v : Int) := by
    unfold toInt32
    rw [hm, if_pos (by omega)]
  rw [ht]
  unfold utf8.ValidRune
  rcases h with h | h
  · rw [if_pos (by omega)]
  · rw [if_neg (by omega), if_pos (by omega)]

theorem strconv.hexEscape_digits (c : Nat) (hs ds : List Nat) (rest : GoString)
    (h : List.Forall₂ HexDigit hs ds)
    (hl : ds.length = if c = 0x78 then 2 else if c = 0x75 then 4 else 8)
    (hv : c ≠ 0x78 → IsScalar (digitsValue 16 0 ds)) :
    strconv.hexEscape c (hs ++ rest)
      = .ok (digitsValue 16 0 ds, decide (c ≠ 0x78), rest) := by
  have hlen : hs.length = ds.length := h.length_eq
  have h8 : ds.length ≤ 8 := by
    rw [hl]; split
    · omega
    · split <;> omega
  obtain ⟨e1, -⟩ := strconv.hexLoop_digits hs ds h rest 0 0 (by norm_num) (by omega)
  have hdrop : List.drop ds.length (hs ++ rest) = rest := by
    rw [← hlen, List.drop_left]
  unfold strconv.hexEscape
  simp only [← hl, e1, hdrop]
  rw [if_neg (by simp only [List.length_append]; omega)]
  by_cases hx : c = 0x78
  · simp [hx]
  · simp only [hx, if_false, toInt32_scalar _ (hv hx)]
    simp [hx]

theorem strconv.octEscape_digits (a b c : Nat) (rest : GoString) (_ha : a < 8) (hb : b < 8)
    (hc : c < 8) (h : 64 * a + 8 * b + c ≤ 255) :
    strconv.octEscape (0x30 + a) ((0x30 + b) :: (0x30 + c) :: rest)
      = .ok (64 * a + 8 * b + c, false, rest) := by
  have e1 : ((0x30 + a - 0x30) <<< 3) ||| (0x30 + b - 0x30) = 8 * a + b := by
    rw [shl_lor _ _ 3 (by norm_num; omega)]; norm_num; omega
  have e2 : ((8 * a + b) <<< 3) ||| (0x30 + c - 0x30) = 64 * a + 8 * b + c := by
    rw [shl_lor _ _ 3 (by norm_num; omega)]; norm_num; omega
  unfold strconv.octEscape
  rw [if_neg (by simp)]
  simp only [strconv.octLoop]
  rw [if_neg (by omega), e1, if_neg (by omega), e2]
  simp only [List.drop_succ_cons, List.drop_zero]
  rw [if_neg (by omega)]

theorem strconv.UnquoteChar_backslash (c1 : Nat) (s1 : GoString) (quote : Nat) :
    strconv.UnquoteChar (0x5C :: c1 :: s1) quote = strconv.unquoteEscape c1 s1 quote := by
  rw [strconv.UnquoteChar_cons _ _ _ (by omega)]
  rw [if_neg (by unfold utf8.RuneSelf; omega), if_neg (by simp)]

/-- `UnquoteChar` decodes an escape sequence to the character it denotes and leaves what
follows the sequence. -/
theorem strconv.UnquoteChar_escape (quote : Nat) (e : GoString) (c : Nat) (rest : GoString)
    (h : Escape quote e c) :
    ∃ mb, strconv.UnquoteChar (e ++ rest) quote = .ok (c, mb, rest) := by
  have two : ∀ c1 : Nat, strconv.UnquoteChar ([0x5C, c1] ++ rest) quote
      = strconv.unquoteEscape c1 rest quote :=
    fun c1 => strconv.UnquoteChar_backslash c1 rest quote
  have more : ∀ (c1 : Nat) (hs : List Nat),
      strconv.UnquoteChar ((0x5C :: c1 :: hs) ++ rest) quote
        = strconv.unquoteEscape c1 (hs ++ rest) quote :=
    fun c1 hs => strconv.UnquoteChar_backslash c1 (hs ++ rest) quote
  cases h with
  | bell => exact ⟨false, (two _).trans rfl⟩
  | backspace => exact ⟨false, (two _).trans rfl⟩
  | formFeed => exact ⟨false, (two _).trans rfl⟩
  | lineFeed => exact ⟨false, (two _).trans rfl⟩
  | carriageReturn => exact ⟨false, (two _).trans rfl⟩
  | tab => exact ⟨false, (two _).trans rfl⟩
  | verticalTab => exact ⟨false, (two _).trans rfl⟩
  | backslash => exact ⟨false, (two _).trans rfl⟩
  | delimiter hq =>
    refine ⟨false, (two _).trans ?_⟩
    rcases hq with hq | hq <;> subst hq <;> rfl
  | octal a b d ha hb hd hle =>
    refine ⟨false, (more _ _).trans ?_⟩
    unfold strconv.unquoteEscape
    rw [if_neg (by omega), if_neg (by omega), if_neg (by omega), if_neg (by omega),
      if_neg (by omega), if_neg (by omega), if_neg (by omega), if_neg (by omega),
      if_pos (by omega)]
    exact strconv.octEscape_digits a b d rest ha hb hd hle
  | hex hs ds hf hl =>
    refine ⟨false, (more _ _).trans ?_⟩
    have := strconv.hexEscape_digits 0x78 hs ds rest hf (by simpa using hl)
      (fun hne => absurd rfl hne)
    simpa [strconv.unquoteEscape] using this
  | unicode4 hs ds hf hl hv =>
    refine ⟨true, (more _ _).trans ?_⟩
    have := strconv.hexEscape_digits 0x75 hs ds rest hf (by simpa using hl) (fun _ => hv)
    simpa [strconv.unquoteEscape] using this
  | unicode8 hs ds hf hl hv =>
    refine ⟨true, (more _ _).trans ?_⟩
    have := strconv.hexEscape_digits 0x55 hs ds rest hf (by simpa using hl) (fun _ => hv)
    simpa [strconv.unquoteEscape] using this

/-- The character an escape sequence denotes is a scalar value. -/
theorem Escape_scalar (quote : Nat) (e : GoString) (c : Nat) (h : Escape quote e c) :
    IsScalar c := by
  unfold IsScalar
  cases h with
  | bell => left; norm_num
  | backspace => left; norm_num
  | formFeed => left; norm_num
  | lineFeed => left; norm_num
  | carriageReturn => left; norm_num
  | tab => left; norm_num
  | verticalTab => left; norm_num
  | backslash => left; norm_num
  | delimiter hq => left; omega
  | octal a b d ha hb hd hle => left; omega
  | hex hs ds hf hl =>
    obtain ⟨-, e2⟩ := strconv.hexLoop_digits hs ds hf [] 0 0 (by norm_num) (by omega)
    rw [hl] at e2
    left
    norm_num at e2
    omega
  | unicode4 hs ds hf hl hv => exact hv
  | unicode8 hs ds hf hl hv => exact hv

/-- `UnquoteChar` reads a character that is neither the backslash nor the delimiter as
itself and leaves what follows its encoding. -/
theorem strconv.UnquoteChar_char (quote c : Nat) (rest : GoString) (hc : IsScalar c)
    (hb : c ≠ 0x5C) (hq : c ≠ quote) :
    ∃ mb, strconv.UnquoteChar (utf8Bytes c ++ rest) quote = .ok (c, mb, rest) := by
  by_cases h1 : c < 0x80
  · refine ⟨false, ?_⟩
    have hu : utf8Bytes c = [c] := by unfold utf8Bytes; rw [if_pos h1]
    rw [hu, List.singleton_append, strconv.UnquoteChar_cons _ _ _ (fun h => hq h.1)]
    rw [if_neg (by unfold utf8.RuneSelf; omega), if_pos hb]
  · refine ⟨true, ?_⟩
    have hdec := utf8.decode_utf8Bytes c rest hc (by omega)
    have hhead : ∃ b0 bs, utf8Bytes c = b0 :: bs ∧ 0xC0 ≤ b0 := by
      unfold utf8Bytes
      rw [if_neg h1]
      split
      · exact ⟨_, _, rfl, by omega⟩
      · split
        · exact ⟨_, _, rfl, by omega⟩
        · exact ⟨_, _, rfl, by omega⟩
    obtain ⟨b0, bs, hbs, hb0⟩ := hhead
    rw [hbs] at hdec ⊢
    rw [List.cons_append] at hdec ⊢
    rw [strconv.UnquoteChar_cons _ _ _ (by omega)]
    rw [if_pos (by unfold utf8.RuneSelf; omega), hdec]
    simp only
    rw [← List.cons_append, List.drop_left]

/-! ### `unquote` on well-formed literals -/

/-- One iteration of the loop of `unquote`. -/
theorem unquoteLoop_step (quote fuel : Nat) (s out : GoString) (v : Nat) (mb : Bool)
    (tail : GoString) (hu : strconv.UnquoteChar s quote = .ok (v, mb, tail))
    (hf : s.length ≤ fuel) :
    unquoteLoop quote fuel s out
      = unquoteLoop quote tail.length tail (out ++ runeToString v) := by
  obtain ⟨k, hk1, hk2, hk⟩ := strconv.UnquoteChar_tail _ _ _ _ _ hu
  cases s with
  | nil => simp at hk2; omega
  | cons c r =>
    cases fuel with
    | zero => simp at hf
    | succ f =>
      rw [unquoteLoop_cons, hu]
      simp only
      apply unquoteLoop_fuel
      · subst hk
        simp only [List.length_drop, List.length_cons] at *; omega
      · exact le_refl _

/-- The loop of `unquote` turns a well-formed body into the text it denotes. -/
theorem unquoteLoop_denotes (quote : Nat) (body text : GoString)
    (h : Denotes quote body text) :
    ∀ out, unquoteLoop quote body.length body out = .ret (.ok (out ++ text)) := by
  induction h with
  | done => intro out; simp [unquoteLoop_nil]
  | char c rest text hc hb hq _ ih =>
    intro out
    obtain ⟨mb, hu⟩ := strconv.UnquoteChar_char quote c rest hc hb hq
    rw [unquoteLoop_step quote _ _ out c mb rest hu (le_refl _), ih,
      runeToString_scalar c hc, List.append_assoc]
  | escape e c rest text he _ ih =>
    intro out
    obtain ⟨mb, hu⟩ := strconv.UnquoteChar_escape quote e c rest he
    have hc : IsScalar c := Escape_scalar quote e c he
    rw [unquoteLoop_step quote _ _ out c mb rest hu (le_refl _), ih,
      runeToString_scalar c hc, List.append_assoc]

/-- `unquote` returns the text a well-formed literal denotes, whatever the last byte. -/
theorem unquote_denotes (quote last : Nat) (body text : GoString)
    (h : Denotes quote body text) :
    unquote (quote :: (body ++ [last])) = .ret (.ok text) := by
  rw [unquote_delimited, unquoteLoop_denotes quote body text h, List.nil_append]

theorem Denotes_ascii (quote c : Nat) (rest text : GoString) (h : c < 0x80)
    (hb : c ≠ 0x5C) (hq : c ≠ quote) (hd : Denotes quote rest text) :
    Denotes quote (c :: rest) (c :: text) := by
  have hu : utf8Bytes c = [c] := by unfold utf8Bytes; rw [if_pos h]
  have := Denotes.char c rest text (Or.inl (by omega)) hb hq hd
  rwa [hu] at this

theorem Denotes_escape2 (quote c1 c : Nat) (rest text : GoString) (h : c < 0x80)
    (he : Escape quote [0x5C, c1] c) (hd : Denotes quote rest text) :
    Denotes quote (0x5C :: c1 :: rest) (c :: text) := by
  have hu : utf8Bytes c = [c] := by unfold utf8Bytes; rw [if_pos h]
  have := Denotes.escape [0x5C, c1] c rest text he hd
  rwa [hu] at this

/-- The body `hello\nworld` (backslash, `n`) denotes `hello`, a newline, `world`. -/
theorem Denotes_hello_world (quote : Nat) (hq : quote = 0x22 ∨ quote = 0x27) :
    Denotes quote (str "hello\\nworld") (str "hello\nworld") := by
  have e : str "hello\\nworld"
      = 0x68 :: 0x65 :: 0x6C :: 0x6C :: 0x6F :: 0x5C :: 0x6E :: 0x77 :: 0x6F :: 0x72 :: 0x6C
        :: 0x64 :: [] := by decide
  have e1 : str "hello\nworld"
      = 0x68 :: 0x65 :: 0x6C :: 0x6C :: 0x6F :: 0x0A :: 0x77 :: 0x6F :: 0x72 :: 0x6C
        :: 0x64 :: [] := by decide
  rw [e, e1]
  have q : ∀ c : Nat, 0x40 ≤ c → c ≠ quote := by intro c hc; omega
  apply Denotes_ascii _ _ _ _ (by norm_num) (by norm_num) (q _ (by norm_num))
  apply Denotes_ascii _ _ _ _ (by norm_num) (by norm_num) (q _ (by norm_num))
  apply Denotes_ascii _ _ _ _ (by norm_num) (by norm_num) (q _ (by norm_num))
  apply Denotes_ascii _ _ _ _ (by norm_num) (by norm_num) (q _ (by norm_num))
  apply Denotes_ascii _ _ _ _ (by norm_num) (by norm_num) (q _ (by norm_num))
  apply Denotes_escape2 _ _ _ _ _ (by norm_num) Escape.lineFeed
  apply Denotes_ascii _ _ _ _ (by norm_num) (by norm_num) (q _ (by norm_num))
  apply Denotes_ascii _ _ _ _ (by norm_num) (by norm_num) (q _ (by norm_num))
  apply Denotes_ascii _ _ _ _ (by norm_num) (by norm_num) (q _ (by norm_num))
  apply Denotes_ascii _ _ _ _ (by norm_num) (by norm_num) (q _ (by norm_num))
  apply Denotes_ascii _ _ _ _ (by norm_num) (by norm_num) (q _ (by norm_num))
  exact Denotes.done

/-- C3. For every token of a type selected by `Unquote` whose value is a double-quoted
literal with a well-formed body, the mapping function returns the token with the text
the body denotes as its value: every escape sequence replaced by the character it
denotes, every other character copied. In particular the 14-byte value of `hello\nworld`
(backslash, `n`) between double quotes unquotes to the 11 bytes of `hello`, a newline,
`world`. -/
theorem C3_double_quoted_literal_is_unescaped {ρ σ : Type} (d : Definition ρ σ)
    (types : List GoString) (t : Token) (body text : GoString)
    (hsel : ∃ n ∈ (if types.length = 0 then [str "String"] else types),
      GoMap.get d.Symbols n 0 = t.Type_)
    (hval : t.Value = 0x22 :: (body ++ [0x22]))
    (hden : Denotes 0x22 body text) :
    unquoteFunc (MakeSymbolTable d (if types.length = 0 then [str "String"] else types)) t
        = .ret { t with Value := text }
      ∧ (str "\"hello\\nworld\"").length = 14
      ∧ unquote (str "\"hello\\nworld\"") = .ret (.ok (str "hello\nworld"))
      ∧ (str "hello\nworld").length = 11 := by
  have hs := (MakeSymbolTable_get d _ t.Type_).mpr hsel
  refine ⟨?_, by decide, by decide, by decide⟩
  unfold unquoteFunc
  rw [if_pos hs, hval, unquote_denotes 0x22 0x22 body text hden]

theorem C3_double_quoted_literal_is_unescaped_witness :
    (str "\"hello\\nworld\"").length = 14
      ∧ (str "hello\nworld").length = 11
      ∧ unquoteFunc (MakeSymbolTable sampleDef
            (if ([] : List GoString).length = 0 then [str "String"] else []))
          { Type_ := -6, Value := str "\"hello\\nworld\"", Pos := ⟨[], 0, 1, 1⟩ }
        = .ret { Type_ := -6, Value := str "hello\nworld", Pos := ⟨[], 0, 1, 1⟩ } :=
  ⟨by decide, by decide,
    (C3_double_quoted_literal_is_unescaped sampleDef []
      { Type_ := -6, Value := str "\"hello\\nworld\"", Pos := ⟨[], 0, 1, 1⟩ }
      (str "hello\\nworld") (str "hello\nworld")
      ⟨str "String", by simp, by decide⟩ (by decide)
      (Denotes_hello_world 0x22 (Or.inl rfl))).1⟩


/-! ### `unquote` against `strconv.Unquote` -/

theorem runeToString_ascii (v : Nat) (h : v < 0x80) : runeToString v = [v % 256] := by
  unfold runeToString
  simp only
  rw [if_pos (by omega)]

theorem strconv.hexEscape_multibyte (c : Nat) (s : GoString) (v : Nat) (mb : Bool)
    (tail : GoString) (hx : c ≠ 0x78) (h : strconv.hexEscape c s = .ok (v, mb, tail)) :
    mb = true := by
  unfold strconv.hexEscape at h
  simp only [] at h
  generalize (if c = 0x78 then 2 else if c = 0x75 then 4 else 8) = n at h
  split at h
  · exact absurd h (by simp)
  · split at h
    · exact absurd h (by simp)
    · try rw [if_neg hx] at h
      split at h
      · exact absurd h (by simp)
      · simp only [Except.ok.injEq, Prod.mk.injEq] at h
        exact h.2.1.symm

theorem strconv.octEscape_small (c : Nat) (s : GoString) (v : Nat) (mb : Bool)
    (tail : GoString) (hc : 0x30 ≤ c ∧ c ≤ 0x37) (h2 : c ≠ 0x32) (h3 : c ≠ 0x33)
    (h : strconv.octEscape c s = .ok (v, mb, tail)) : v < 0x80 := by
  unfold strconv.octEscape at h
  split at h
  · exact absurd h (by simp)
  · rename_i hlen
    match s, hlen with
    | [], hlen => simp at hlen
    | [_], hlen => simp at hlen
    | b1 :: b2 :: r, _ =>
      have hl : strconv.octLoop 2 (b1 :: b2 :: r) (c - 0x30)
          = if b1 < 0x30 ∨ 7 < b1 - 0x30 then none
            else if b2 < 0x30 ∨ 7 < b2 - 0x30 then none
            else some (((((c - 0x30) <<< 3) ||| (b1 - 0x30)) <<< 3) ||| (b2 - 0x30)) := rfl
      rw [hl] at h
      by_cases hb1 : b1 < 0x30 ∨ 7 < b1 - 0x30
      · rw [if_pos hb1] at h
        exact absurd h (by simp)
      rw [if_neg hb1] at h
      by_cases hb2 : b2 < 0x30 ∨ 7 < b2 - 0x30
      · rw [if_pos hb2] at h
        exact absurd h (by simp)
      rw [if_neg hb2] at h
      have e : ((((c - 0x30) <<< 3) ||| (b1 - 0x30)) <<< 3) ||| (b2 - 0x30)
          = 64 * (c - 0x30) + 8 * (b1 - 0x30) + (b2 - 0x30) := by
        rw [shl_lor (c - 0x30) (b1 - 0x30) 3 (by norm_num; omega),
          shl_lor _ (b2 - 0x30) 3 (by norm_num; omega)]
        norm_num; omega
      rw [e] at h
      simp only at h
      by_cases hv : 64 * (c - 0x30) + 8 * (b1 - 0x30) + (b2 - 0x30) > 255
      · rw [if_pos hv] at h
        exact absurd h (by simp)
      · rw [if_neg hv] at h
        simp only [Except.ok.injEq, Prod.mk.injEq] at h
        omega

theorem strconv.unquoteEscape_no_byte (c : Nat) (s : GoString) (quote v : Nat) (mb : Bool)
    (tail : GoString) (hc : c ≠ 0x78 ∧ c ≠ 0x32 ∧ c ≠ 0x33)
    (h : strconv.unquoteEscape c s quote = .ok (v, mb, tail)) : v < 0x80 ∨ mb = true := by
  have val : ∀ (a : Nat) (b : Bool) (t : GoString), a < 0x80 →
      (Except.ok (a, b, t) : Except GoError (Nat × Bool × GoString)) = .ok (v, mb, tail) →
      v < 0x80 ∨ mb = true := by
    intro a b t ha hab
    simp only [Except.ok.injEq, Prod.mk.injEq] at hab
    left; omega
  have bad : (Except.error GoError.ErrSyntax : Except GoError (Nat × Bool × GoString))
      = .ok (v, mb, tail) → v < 0x80 ∨ mb = true :=
    fun hab => absurd hab (by simp)
  unfold strconv.unquoteEscape at h
  by_cases h0 : c = 0x61
  · rw [if_pos h0] at h; exact val _ _ _ (by norm_num) h
  rw [if_neg h0] at h
  by_cases h1 : c = 0x62
  · rw [if_pos h1] at h; exact val _ _ _ (by norm_num) h
  rw [if_neg h1] at h
  by_cases h2 : c = 0x66
  · rw [if_pos h2] at h; exact val _ _ _ (by norm_num) h
  rw [if_neg h2] at h
  by_cases h3 : c = 0x6E
  · rw [if_pos h3] at h; exact val _ _ _ (by norm_num) h
  rw [if_neg h3] at h
  by_cases h4 : c = 0x72
  · rw [if_pos h4] at h; exact val _ _ _ (by norm_num) h
  rw [if_neg h4] at h
  by_cases h5 : c = 0x74
  · rw [if_pos h5] at h; exact val _ _ _ (by norm_num) h
  rw [if_neg h5] at h
  by_cases h6 : c = 0x76
  · rw [if_pos h6] at h; exact val _ _ _ (by norm_num) h
  rw [if_neg h6] at h
  by_cases hx : c = 0x78 ∨ c = 0x75 ∨ c = 0x55
  · rw [if_pos hx] at h
    exact Or.inr (strconv.hexEscape_multibyte _ _ _ _ _ hc.1 h)
  rw [if_neg hx] at h
  by_cases ho : 0x30 ≤ c ∧ c ≤ 0x37
  · rw [if_pos ho] at h
    exact Or.inl (strconv.octEscape_small _ _ _ _ _ ho hc.2.1 hc.2.2 h)
  rw [if_neg ho] at h
  by_cases hb : c = 0x5C
  · rw [if_pos hb] at h; exact val _ _ _ (by norm_num) h
  rw [if_neg hb] at h
  by_cases hq : c = 0x27 ∨ c = 0x22
  · rw [if_pos hq] at h
    by_cases hcq : c ≠ quote
    · rw [if_pos hcq] at h; exact bad h
    · rw [if_neg hcq] at h; exact val _ _ _ (by omega) h
  · rw [if_neg hq] at h; exact bad h

/-- Without the escapes `\x`, `\2..`, `\3..` every character `UnquoteChar` decodes is
either below `RuneSelf` or flagged multibyte. -/
theorem strconv.UnquoteChar_no_byte (s : GoString) (quote v : Nat) (mb : Bool)
    (tail : GoString) (hs : ByteEscapeFree s)
    (h : strconv.UnquoteChar s quote = .ok (v, mb, tail)) : v < 0x80 ∨ mb = true := by
  unfold strconv.UnquoteChar at h
  split at h
  · exact absurd h (by simp)
  · rename_i c rest
    split at h
    · exact absurd h (by simp)
    · split at h
      · simp only [Except.ok.injEq, Prod.mk.injEq] at h
        exact Or.inr h.2.1.symm
      · rename_i hlt
        split at h
        · simp only [Except.ok.injEq, Prod.mk.injEq] at h
          left
          unfold utf8.RuneSelf at hlt
          omega
        · rename_i hbs
          split at h
          · exact absurd h (by simp)
          · rename_i c1 s1
            have hc : c = 0x5C := by
              by_contra hne
              exact hbs hne
            have := (List.chain'_cons.mp hs).1 hc
            exact strconv.unquoteEscape_no_byte _ _ _ _ _ _ this h

/-- On a double-quoted literal without byte escapes the loop of `strconv.Unquote` and
the loop of `unquote` are the same computation. -/
theorem strconv.UnquoteLoop_eq_unquoteLoop (fuel : Nat) :
    ∀ (s buf : GoString), ByteEscapeFree s →
      strconv.UnquoteLoop 0x22 fuel s buf = unquoteLoop 0x22 fuel s buf := by
  induction fuel with
  | zero =>
    intro s buf _
    cases s <;> rfl
  | succ f ih =>
    intro s buf hs
    cases s with
    | nil => rfl
    | cons c r =>
      rw [unquoteLoop_cons]
      unfold strconv.UnquoteLoop
      cases hu : strconv.UnquoteChar (c :: r) 0x22 with
      | error e => rfl
      | ok x =>
        obtain ⟨v, mb, tail⟩ := x
        obtain ⟨k, -, -, hk⟩ := strconv.UnquoteChar_tail _ _ _ _ _ hu
        have hnb := strconv.UnquoteChar_no_byte _ _ _ _ _ hs hu
        have htail : ByteEscapeFree tail := by
          rw [hk]; exact List.Chain'.drop hs k
        simp only
        rw [if_neg (by omega), ih tail _ htail]
        congr 1
        by_cases hv : v < 0x80
        · rw [if_pos (Or.inl (by unfold utf8.RuneSelf; exact hv)), runeToString_ascii v hv]
        · have hmb : mb = true := by
            rcases hnb with h | h
            · exact absurd h hv
            · exact h
          rw [if_neg (by unfold utf8.RuneSelf; simp [hmb]; omega)]

theorem utf8.first_size (b : Nat) (h1 : ¬ b < 0x80) : 1 ≤ utf8.first b &&& 7 := by
  unfold utf8.first
  rw [if_neg h1]
  repeat' split
  all_goals decide

/-- `utf8.ValidString` ends within as many iterations as the string has bytes. -/
theorem utf8.ValidStringLoop_returns (fuel : Nat) :
    ∀ s : GoString, s.length ≤ fuel → ∃ b, utf8.ValidStringLoop fuel s = some b := by
  induction fuel with
  | zero =>
    intro s h
    have : s = [] := List.length_eq_zero.mp (by omega)
    subst this
    exact ⟨true, rfl⟩
  | succ f ih =>
    intro s h
    cases s with
    | nil => exact ⟨true, rfl⟩
    | cons si rest =>
      unfold utf8.ValidStringLoop
      by_cases h1 : si < utf8.RuneSelf
      · rw [if_pos h1]
        exact ih rest (by simp only [List.length_cons] at h; omega)
      · rw [if_neg h1]
        simp only
        by_cases hxx : utf8.first si = 0xF1
        · rw [if_pos hxx]; exact ⟨false, rfl⟩
        rw [if_neg hxx]
        have hsz := utf8.first_size si (by unfold utf8.RuneSelf at h1; exact h1)
        have hdrop : (List.drop (utf8.first si &&& 7) (si :: rest)).length ≤ f := by
          simp only [List.length_drop, List.length_cons] at *; omega
        repeat' split
        all_goals first
          | exact ⟨false, rfl⟩
          | exact ih _ hdrop

theorem Utf8Text_ascii (s : GoString) (h : ∀ b ∈ s, b < 0x80) : Utf8Text s := by
  induction s with
  | nil => exact Utf8Text.done
  | cons b rest ih =>
    have hb : b < 0x80 := h b (by simp)
    have hu : utf8Bytes b = [b] := by unfold utf8Bytes; rw [if_pos hb]
    have := Utf8Text.char b rest (Or.inl (by omega))
      (ih (fun x hx => h x (List.mem_cons_of_mem _ hx)))
    rwa [hu] at this

/-- A UTF-8 text without backslash and without the delimiter is a well-formed body and
denotes itself. -/
theorem Utf8Text_denotes (quote : Nat) (hquote : quote < 0x80) (s : GoString)
    (h : Utf8Text s) (hb : 0x5C ∉ s) (hq : quote ∉ s) : Denotes quote s s := by
  induction h with
  | done => exact Denotes.done
  | char c rest hc _ ih =>
    have hne : ∀ x, x < 0x80 → x ∉ utf8Bytes c ++ rest → c ≠ x := by
      intro x hx hmem hcx
      subst hcx
      apply hmem
      have hu : utf8Bytes c = [c] := by unfold utf8Bytes; rw [if_pos hx]
      rw [hu]; simp
    exact Denotes.char c rest rest hc (hne _ (by norm_num) hb) (hne _ hquote hq)
      (ih (fun hm => hb (List.mem_append_right _ hm))
        (fun hm => hq (List.mem_append_right _ hm)))

/-- `strconv.Unquote` on a value between double quotes whose body has no newline. -/
theorem strconv.Unquote_double_quoted (body : GoString) (hnl : 0x0A ∉ body) :
    strconv.Unquote (0x22 :: (body ++ [0x22]))
      = if strconv.contains body 0x5C = false ∧ strconv.contains body 0x22 = false then
          match utf8.ValidString body with
          | none => .outOfFuel
          | some true => .ret (.ok body)
          | some false => strconv.UnquoteLoop 0x22 body.length body []
        else strconv.UnquoteLoop 0x22 body.length body [] := by
  have hb : (List.take ((0x22 :: (body ++ [0x22])).length - 1)
      (0x22 :: (body ++ [0x22]))).drop 1 = body := by
    have : (0x22 :: (body ++ [0x22])).length - 1 = (0x22 :: body).length := by simp
    rw [this, ← List.cons_append, List.take_left']
    · rfl
    · rfl
  have hlast : (0x22 :: (body ++ [0x22])).getD ((0x22 :: (body ++ [0x22])).length - 1) 0
      = 0x22 := by
    have : (0x22 :: (body ++ [0x22])).length - 1 = body.length + 1 := by simp
    rw [this, List.getD_cons_succ, List.getD_append_right _ _ _ _ (le_refl _)]
    simp
  have hc : strconv.contains body 0x0A = false := by
    unfold strconv.contains; simpa using hnl
  unfold strconv.Unquote
  simp only [hb, hlast, List.getD_cons_zero, hc]
  rw [if_neg (by simp), if_neg (by simp), if_neg (by norm_num), if_neg (by norm_num),
    if_neg (by simp)]
  simp only [if_true]

/-- Where `unquote` and `strconv.Unquote` agree: on a selected token whose value is a
double-quoted literal with a body of UTF-8 text without a newline byte and without a
backslash directly followed by `x`, `2` or `3`, the two have the same outcome on the
value, `strconv.Unquote` returns, and the mapping function of `Unquote` returns the
token with that string as its value or fails with a lexer error at the position of the
token when `strconv.Unquote` returns an error. -/
theorem unquote_agrees_with_strconv_on_double_quoted {ρ σ : Type}
    (d : Definition ρ σ) (types : List GoString) (t : Token) (body : GoString)
    (hsel : ∃ n ∈ (if types.length = 0 then [str "String"] else types),
      GoMap.get d.Symbols n 0 = t.Type_)
    (hval : t.Value = 0x22 :: (body ++ [0x22]))
    (hutf : Utf8Text body) (hnl : 0x0A ∉ body) (hbe : ByteEscapeFree body) :
    unquote t.Value = strconv.Unquote t.Value
      ∧ (∃ r, strconv.Unquote t.Value = .ret r)
      ∧ (∀ v, strconv.Unquote t.Value = .ret (.ok v) →
          unquoteFunc
            (MakeSymbolTable d (if types.length = 0 then [str "String"] else types)) t
            = .ret { t with Value := v })
      ∧ (∀ e, strconv.Unquote t.Value = .ret (.error e) →
          unquoteFunc
            (MakeSymbolTable d (if types.length = 0 then [str "String"] else types)) t
            = .panic (.lexError
                { Format := "invalid quoted string %q: %s", Args := [t.Value, e.Error],
                  Pos := t.Pos })) := by
  have hs := (MakeSymbolTable_get d _ t.Type_).mpr hsel
  have heq : unquote t.Value = strconv.Unquote t.Value := by
    rw [hval, unquote_delimited, strconv.Unquote_double_quoted body hnl]
    have hloop := strconv.UnquoteLoop_eq_unquoteLoop body.length body [] hbe
    by_cases htriv : strconv.contains body 0x5C = false ∧ strconv.contains body 0x22 = false
    · rw [if_pos htriv]
      obtain ⟨b, hvs⟩ := utf8.ValidStringLoop_returns body.length body (le_refl _)
      have hvs1 : utf8.ValidString body = some b := hvs
      rw [hvs1]
      cases b with
      | false => exact hloop.symm
      | true =>
        have hb : 0x5C ∉ body := by
          have := htriv.1; unfold strconv.contains at this; simpa using this
        have hq : 0x22 ∉ body := by
          have := htriv.2; unfold strconv.contains at this; simpa using this
        have hd := Utf8Text_denotes 0x22 (by norm_num) body hutf hb hq
        rw [unquoteLoop_denotes 0x22 body body hd, List.nil_append]
    · rw [if_neg htriv]
      exact hloop.symm
  obtain ⟨r, hr⟩ : ∃ r, unquote t.Value = .ret r := by
    rw [hval, unquote_delimited]
    exact unquoteLoop_returns _ _ _ _ (le_refl _)
  refine ⟨heq, ⟨r, heq ▸ hr⟩, fun v hv => ?_, fun e he => ?_⟩
  · unfold unquoteFunc
    rw [if_pos hs, heq, hv]
  · unfold unquoteFunc
    rw [if_pos hs, heq, he]
    rfl

theorem unquote_agrees_with_strconv_example :
    strconv.Unquote (str "\"a\\tb\"") = .ret (.ok (str "a\tb"))
      ∧ unquoteFunc (MakeSymbolTable sampleDef
            (if ([] : List GoString).length = 0 then [str "String"] else []))
          { Type_ := -6, Value := str "\"a\\tb\"", Pos := ⟨[], 6, 1, 7⟩ }
        = .ret { Type_ := -6, Value := str "a\tb", Pos := ⟨[], 6, 1, 7⟩ } :=
  ⟨by decide,
    (unquote_agrees_with_strconv_on_double_quoted sampleDef []
      { Type_ := -6, Value := str "\"a\\tb\"", Pos := ⟨[], 6, 1, 7⟩ } (str "a\\tb")
      ⟨str "String", by simp, by decide⟩ (by decide)
      (Utf8Text_ascii _ (by decide)) (by decide)
      (by
        rw [show str "a\\tb" = [0x61, 0x5C, 0x74, 0x62] by decide]
        unfold ByteEscapeFree
        simp)).2.2.1 (str "a\tb") (by decide)⟩

/-- C6 (the code departs from the claim). The mapping function of `Unquote` does not
apply `strconv.Unquote` to the tokens of the given types. On a selected token whose
value is `a`, a raw newline, `b` between double quotes, `strconv.Unquote` returns a
syntax error while the mapping function does not fail and returns the three bytes. On
the single-quoted value `'ab'`, `strconv.Unquote` returns a syntax error, a
single-quoted Go literal being one character, while the mapping function returns `ab`.
On the double-quoted value with the body `\xff`, `strconv.Unquote` returns the single
byte `FF` while the mapping function returns the two bytes `C3 BF`. -/
theorem C6_unquote_departs_from_strconv_Unquote :
    (strconv.Unquote [0x22, 0x61, 0x0A, 0x62, 0x22] = .ret (.error .ErrSyntax)
        ∧ unquoteFunc (MakeSymbolTable sampleDef [str "String"])
            { Type_ := -6, Value := [0x22, 0x61, 0x0A, 0x62, 0x22], Pos := ⟨[], 0, 1, 1⟩ }
          = .ret { Type_ := -6, Value := [0x61, 0x0A, 0x62], Pos := ⟨[], 0, 1, 1⟩ })
      ∧ (strconv.Unquote (str "'ab'") = .ret (.error .ErrSyntax)
        ∧ unquoteFunc (MakeSymbolTable sampleDef [str "String"])
            { Type_ := -6, Value := str "'ab'", Pos := ⟨[], 0, 1, 1⟩ }
          = .ret { Type_ := -6, Value := str "ab", Pos := ⟨[], 0, 1, 1⟩ })
      ∧ (strconv.Unquote (str "\"\\xff\"") = .ret (.ok [0xFF])
        ∧ unquoteFunc (MakeSymbolTable sampleDef [str "String"])
            { Type_ := -6, Value := str "\"\\xff\"", Pos := ⟨[], 0, 1, 1⟩ }
          = .ret { Type_ := -6, Value := [0xC3, 0xBF], Pos := ⟨[], 0, 1, 1⟩ }) := by
  refine ⟨⟨by decide, by decide⟩, ⟨by decide, by decide⟩, ⟨by decide, by decide⟩⟩


/-! ### Values of two bytes or more -/

/-- On a selected token whose value has at least two bytes the mapping function of
`Unquote` either returns the token with the unquoted value or fails with a lexer error
positioned at the token, the latter exactly when `unquote` returns an error. -/
theorem unquoteFunc_of_two_bytes (table : GoMap Int Bool) (t : Token)
    (hsel : GoMap.get table t.Type_ false = true) (hlen : 2 ≤ t.Value.length) :
    (∃ text, unquote t.Value = .ret (.ok text)
        ∧ unquoteFunc table t = .ret { t with Value := text })
      ∨ (∃ e, unquote t.Value = .ret (.error e)
        ∧ unquoteFunc table t = .panic (.lexError
            { Format := "invalid quoted string %q: %s", Args := [t.Value, e.Error],
              Pos := t.Pos })) := by
  obtain ⟨quote, body, last, hv⟩ := GoString.delimited t.Value hlen
  obtain ⟨r, hr⟩ : ∃ r, unquote t.Value = .ret r := by
    rw [hv, unquote_delimited]
    exact unquoteLoop_returns _ _ _ _ (le_refl _)
  cases r with
  | ok text =>
    left
    refine ⟨text, hr, ?_⟩
    unfold unquoteFunc
    rw [if_pos hsel, hr]
  | error e =>
    right
    refine ⟨e, hr, ?_⟩
    unfold unquoteFunc
    rw [if_pos hsel, hr]
    rfl


/-! ### `ConsumeAll` -/

theorem ConsumeAllBody_succ {σ : Type} (lexer : Lexer σ) (transform : Bool) (fuel : Nat)
    (s : σ) (tokens : List Token) (calls : Nat) :
    ConsumeAllBody lexer transform (fuel + 1) s tokens calls
      = match lexer.Next s with
        | .panic p => { tokens := tokens, calls := calls + 1, stop := .panic p }
        | .outOfFuel => { tokens := tokens, calls := calls + 1, stop := .outOfFuel }
        | .ret (token, s1) =>
          match (if transform = true then lexer.Transform s1 token
              else .ret (token, s1)) with
          | .panic p => { tokens := tokens, calls := calls + 1, stop := .panic p }
          | .outOfFuel => { tokens := tokens, calls := calls + 1, stop := .outOfFuel }
          | .ret (token1, s2) =>
            if token1.Type_ = EOF then
              { tokens := tokens ++ [token1], calls := calls + 1, stop := .ret () }
            else ConsumeAllBody lexer transform fuel s2 (tokens ++ [token1]) (calls + 1) :=
  rfl

/-- One read of the lexer: `Next`, then `Transform` when `transform` is set. -/
theorem Lexer.reads_succ {σ : Type} (l : Lexer σ) (transform : Bool) (n : Nat) (s : σ) :
    Lexer.reads l transform (n + 1) s
      = match l.Next s with
        | .ret (t, s1) =>
          match (if transform = true then l.Transform s1 t else .ret (t, s1)) with
          | .ret (t1, s2) => (Lexer.reads l transform n s2).map (fun r => (t1 :: r.1, r.2))
          | _ => none
        | _ => none :=
  rfl

/-- Without `Transform` a read is a call of `Next`. -/
theorem Lexer.reads_false {σ : Type} (l : Lexer σ) (n : Nat) :
    ∀ s : σ, Lexer.reads l false n s = Lexer.nexts l n s := by
  induction n with
  | zero => intro s; rfl
  | succ n ih =>
    intro s
    rw [Lexer.reads_succ]
    unfold Lexer.nexts
    cases l.Next s with
    | ret x =>
      obtain ⟨t, s1⟩ := x
      simp [ih]
    | panic p => rfl
    | outOfFuel => rfl

/-- After `n` reads that return tokens other than EOF, the body of `ConsumeAll` has
appended these tokens, made `n` calls of `Next` and goes on from the state they leave. -/
theorem ConsumeAllBody_reads {σ : Type} (lexer : Lexer σ) (transform : Bool) (n : Nat) :
    ∀ (fuel : Nat) (s s1 : σ) (read tokens : List Token) (calls : Nat),
      Lexer.reads lexer transform n s = some (read, s1) →
      (∀ t ∈ read, t.Type_ ≠ EOF) →
      ConsumeAllBody lexer transform (fuel + n) s tokens calls
        = ConsumeAllBody lexer transform fuel s1 (tokens ++ read) (calls + n) := by
  induction n with
  | zero =>
    intro fuel s s1 read tokens calls h _
    simp only [Lexer.reads, Option.some.injEq, Prod.mk.injEq] at h
    obtain ⟨rfl, rfl⟩ := h
    simp
  | succ n ih =>
    intro fuel s s1 read tokens calls h hne
    rw [Lexer.reads_succ] at h
    rw [← Nat.add_assoc, ConsumeAllBody_succ]
    cases hn : lexer.Next s with
    | panic p => rw [hn] at h; exact absurd h (by simp)
    | outOfFuel => rw [hn] at h; exact absurd h (by simp)
    | ret x =>
      obtain ⟨t, s2⟩ := x
      rw [hn] at h
      simp only at h ⊢
      cases ht : (if transform = true then lexer.Transform s2 t else Res.ret (t, s2)) with
      | panic p => rw [ht] at h; exact absurd h (by simp)
      | outOfFuel => rw [ht] at h; exact absurd h (by simp)
      | ret y =>
        obtain ⟨t1, s3⟩ := y
        rw [ht] at h
        simp only at h ⊢
        cases hr : Lexer.reads lexer transform n s3 with
        | none => rw [hr] at h; exact absurd h (by simp)
        | some r =>
          obtain ⟨rest, s4⟩ := r
          rw [hr] at h
          simp only [Option.map_some', Option.some.injEq, Prod.mk.injEq] at h
          obtain ⟨rfl, rfl⟩ := h
          have hne1 : t1.Type_ ≠ EOF := hne t1 (by simp)
          rw [if_neg hne1, ih fuel s3 s4 rest (tokens ++ [t1]) (calls + 1) hr
            (fun x hx => hne x (List.mem_cons_of_mem _ hx))]
          simp [Nat.add_assoc, Nat.add_comm 1 n]

/-- A read that panics stops the body of `ConsumeAll` with the tokens appended so far. -/
theorem ConsumeAllBody_panic {σ : Type} (lexer : Lexer σ) (transform : Bool) (fuel : Nat)
    (s : σ) (tokens : List Token) (calls : Nat) (p : Panic)
    (hp : lexer.Next s = .panic p
      ∨ (transform = true ∧ ∃ t s1, lexer.Next s = .ret (t, s1)
          ∧ lexer.Transform s1 t = .panic p)) :
    ConsumeAllBody lexer transform (fuel + 1) s tokens calls
      = { tokens := tokens, calls := calls + 1, stop := .panic p } := by
  rw [ConsumeAllBody_succ]
  rcases hp with hp | ⟨htr, t, s1, hn, ht⟩
  · rw [hp]
  · rw [hn]
    simp only [htr, if_true, ht]

/-- A read that returns an EOF token stops the body of `ConsumeAll` at its `return`. -/
theorem ConsumeAllBody_eof {σ : Type} (lexer : Lexer σ) (transform : Bool) (fuel : Nat)
    (s s1 : σ) (tokens : List Token) (calls : Nat) (last : Token)
    (hr : Lexer.reads lexer transform 1 s = some ([last], s1)) (hl : last.Type_ = EOF) :
    ConsumeAllBody lexer transform (fuel + 1) s tokens calls
      = { tokens := tokens ++ [last], calls := calls + 1, stop := .ret () } := by
  rw [ConsumeAllBody_succ]
  rw [Lexer.reads_succ] at hr
  cases hn : lexer.Next s with
  | panic p => rw [hn] at hr; exact absurd hr (by simp)
  | outOfFuel => rw [hn] at hr; exact absurd hr (by simp)
  | ret x =>
    obtain ⟨t, s2⟩ := x
    rw [hn] at hr
    simp only at hr ⊢
    cases ht : (if transform = true then lexer.Transform s2 t else Res.ret (t, s2)) with
    | panic p => rw [ht] at hr; exact absurd hr (by simp)
    | outOfFuel => rw [ht] at hr; exact absurd hr (by simp)
    | ret y =>
      obtain ⟨t1, s3⟩ := y
      rw [ht] at hr
      simp only [Lexer.reads, Option.map_some', Option.some.injEq, Prod.mk.injEq,
        List.cons.injEq, and_true] at hr
      obtain ⟨rfl, -⟩ := hr
      simp only
      rw [if_pos hl]

/-- Reads made one after the other. -/
theorem Lexer.reads_add {σ : Type} (l : Lexer σ) (transform : Bool) (n : Nat) :
    ∀ (m : Nat) (s : σ) (read : List Token) (s1 : σ),
      Lexer.reads l transform (n + m) s = some (read, s1) →
      ∃ first rest s2, read = first ++ rest ∧ first.length = n ∧ rest.length = m
        ∧ Lexer.reads l transform n s = some (first, s2)
        ∧ Lexer.reads l transform m s2 = some (rest, s1) := by
  induction n with
  | zero =>
    intro m s read s1 h
    rw [Nat.zero_add] at h
    have hlen : read.length = m := by
      clear * - h
      induction m generalizing s read with
      | zero =>
        simp only [Lexer.reads, Option.some.injEq, Prod.mk.injEq] at h
        rw [← h.1]; rfl
      | succ m ih =>
        rw [Lexer.reads_succ] at h
        cases hn : l.Next s with
        | panic p => rw [hn] at h; exact absurd h (by simp)
        | outOfFuel => rw [hn] at h; exact absurd h (by simp)
        | ret x =>
          obtain ⟨t, s2⟩ := x
          rw [hn] at h
          simp only at h
          cases ht : (if transform = true then l.Transform s2 t else Res.ret (t, s2)) with
          | panic p => rw [ht] at h; exact absurd h (by simp)
          | outOfFuel => rw [ht] at h; exact absurd h (by simp)
          | ret y =>
            obtain ⟨t1, s3⟩ := y
            rw [ht] at h
            simp only at h
            cases hr : Lexer.reads l transform m s3 with
            | none => rw [hr] at h; exact absurd h (by simp)
            | some r =>
              rw [hr] at h
              simp only [Option.map_some', Option.some.injEq, Prod.mk.injEq] at h
              rw [← h.1, List.length_cons, ih s3 r.1 (by rw [hr, ← h.2])]
    exact ⟨[], read, s, rfl, rfl, hlen, rfl, h⟩
  | succ n ih =>
    intro m s read s1 h
    rw [Nat.add_right_comm, Lexer.reads_succ] at h
    rw [Lexer.reads_succ]
    cases hn : l.Next s with
    | panic p => rw [hn] at h; exact absurd h (by simp)
    | outOfFuel => rw [hn] at h; exact absurd h (by simp)
    | ret x =>
      obtain ⟨t, s2⟩ := x
      rw [hn] at h
      simp only at h ⊢
      cases ht : (if transform = true then l.Transform s2 t else Res.ret (t, s2)) with
      | panic p => rw [ht] at h; exact absurd h (by simp)
      | outOfFuel => rw [ht] at h; exact absurd h (by simp)
      | ret y =>
        obtain ⟨t1, s3⟩ := y
        rw [ht] at h
        simp only at h ⊢
        cases hr : Lexer.reads l transform (n + m) s3 with
        | none => rw [hr] at h; exact absurd h (by simp)
        | some r =>
          obtain ⟨rd, s4⟩ := r
          rw [hr] at h
          simp only [Option.map_some', Option.some.injEq, Prod.mk.injEq] at h
          obtain ⟨rfl, rfl⟩ := h
          obtain ⟨first, rest, s5, e1, e2, e3, e4, e5⟩ := ih m s3 rd s4 hr
          refine ⟨t1 :: first, rest, s5, by rw [e1]; rfl, by simp [e2], e3, ?_, e5⟩
          rw [e4]; rfl

/-- The body of `ConsumeAll` on a lexer whose read after the tokens `read` panics. -/
theorem ConsumeAllBody_reads_panic {σ : Type} (lexer : Lexer σ) (transform : Bool)
    (read : List Token) (s : σ) (p : Panic) (fuel : Nat)
    (hreads : Lexer.reads lexer transform read.length lexer.state = some (read, s))
    (hearly : ∀ t ∈ read, t.Type_ ≠ EOF)
    (hpanic : lexer.Next s = .panic p
      ∨ (transform = true ∧ ∃ t s1, lexer.Next s = .ret (t, s1)
          ∧ lexer.Transform s1 t = .panic p))
    (hfuel : read.length + 1 ≤ fuel) :
    ConsumeAllBody lexer transform fuel lexer.state [] 0
      = { tokens := read, calls := read.length + 1, stop := .panic p } := by
  obtain ⟨f, rfl⟩ : ∃ f, fuel = (f + 1) + read.length := ⟨fuel - (read.length + 1), by omega⟩
  rw [ConsumeAllBody_reads lexer transform read.length (f + 1) lexer.state s read [] 0
    hreads hearly, ConsumeAllBody_panic lexer transform f s _ _ p hpanic]
  simp

/-- The body of `ConsumeAll` on a lexer that reads the tokens `early`, none of them
EOF, and then an EOF token. -/
theorem ConsumeAllBody_reads_eof {σ : Type} (lexer : Lexer σ) (transform : Bool)
    (early : List Token) (last : Token) (s : σ) (fuel : Nat)
    (hreads : Lexer.reads lexer transform (early.length + 1) lexer.state
      = some (early ++ [last], s))
    (hearly : ∀ t ∈ early, t.Type_ ≠ EOF) (hlast : last.Type_ = EOF)
    (hfuel : early.length + 1 ≤ fuel) :
    ConsumeAllBody lexer transform fuel lexer.state [] 0
      = { tokens := early ++ [last], calls := early.length + 1, stop := .ret () } := by
  obtain ⟨f, rfl⟩ : ∃ f, fuel = (f + 1) + early.length :=
    ⟨fuel - (early.length + 1), by omega⟩
  obtain ⟨first, rest, s2, e1, e2, e3, e4, e5⟩ :=
    Lexer.reads_add lexer transform early.length 1 lexer.state _ s hreads
  obtain ⟨rfl, rfl⟩ := List.append_inj e1.symm e2
  rw [ConsumeAllBody_reads lexer transform first.length (f + 1) lexer.state s2 first [] 0
    e4 hearly, ConsumeAllBody_eof lexer transform f s2 s _ _ last e5 hlast]
  simp

/-- C11. ConsumeAll reads all tokens from a lexer: when the first calls of `Next` return
the tokens `early`, none of type EOF, and the call after them returns `last` of type
EOF, none of the calls failing, `ConsumeAll(lexer, false)` returns these tokens in
order with a nil error, having called `Next` once per token; the last token returned is
the EOF token and no earlier one is EOF. -/
theorem C11_consumeAll_reads_all_tokens {σ : Type} (lexer : Lexer σ) (early : List Token)
    (last : Token) (s : σ) (fuel : Nat)
    (hnext : Lexer.nexts lexer (early.length + 1) lexer.state = some (early ++ [last], s))
    (hearly : ∀ t ∈ early, t.Type_ ≠ EOF) (hlast : last.Type_ = EOF)
    (hfuel : early.length + 1 ≤ fuel) :
    ConsumeAll lexer false fuel = .ret (early ++ [last], none)
      ∧ (ConsumeAllBody lexer false fuel lexer.state [] 0).calls = early.length + 1
      ∧ (early ++ [last]).getLast? = some last
      ∧ last.EOF = true
      ∧ ∀ t ∈ early, t.EOF = false := by
  have hreads : Lexer.reads lexer false (early.length + 1) lexer.state
      = some (early ++ [last], s) := by
    rw [Lexer.reads_false]; exact hnext
  have hbody := ConsumeAllBody_reads_eof lexer false early last s fuel hreads hearly hlast
    hfuel
  refine ⟨?_, ?_, by simp, by simp [Token.EOF, hlast], ?_⟩
  · unfold ConsumeAll
    rw [hbody]
  · rw [hbody]
  · intro t ht
    simp [Token.EOF, hearly t ht]

theorem C11_consumeAll_reads_all_tokens_witness :
    ConsumeAll (sampleDef.Lex ()) false 3
        = .ret ([ { Type_ := -2, Value := str "hello", Pos := ⟨[], 0, 1, 1⟩ },
            { Type_ := -6, Value := str "\"a\\tb\"", Pos := ⟨[], 6, 1, 7⟩ },
            { Type_ := EOF, Value := [], Pos := ⟨[], 13, 1, 14⟩ } ], none)
      ∧ (ConsumeAllBody (sampleDef.Lex ()) false 3 (sampleDef.Lex ()).state [] 0).calls
        = 3 :=
  have h := C11_consumeAll_reads_all_tokens (sampleDef.Lex ())
    [ { Type_ := -2, Value := str "hello", Pos := ⟨[], 0, 1, 1⟩ },
      { Type_ := -6, Value := str "\"a\\tb\"", Pos := ⟨[], 6, 1, 7⟩ } ]
    { Type_ := EOF, Value := [], Pos := ⟨[], 13, 1, 14⟩ } [] 3
    (by decide) (by decide) (by decide) (by decide)
  ⟨h.1, h.2.1⟩

/-- C12. Lexer errors reported by panic are turned into a returned error by
`ConsumeAll`. When, after reads that returned the tokens `read`, `Next` or `Transform`
panics with the value `p`: if `p` is a lexer `*Error`, `ConsumeAll` returns with that
error as `err`; if `p` is any other value, `ConsumeAll` panics with `p`. And `err` is
nil exactly when the body came to its `return` statement: a returned `err` is the
value of a panic that stopped the body. -/
theorem C12_consumeAll_returns_lexer_errors {σ : Type} (lexer : Lexer σ)
    (transform : Bool) (read : List Token) (s : σ) (p : Panic) (fuel : Nat)
    (hreads : Lexer.reads lexer transform read.length lexer.state = some (read, s))
    (hearly : ∀ t ∈ read, t.Type_ ≠ EOF)
    (hpanic : lexer.Next s = .panic p
      ∨ (transform = true ∧ ∃ t s1, lexer.Next s = .ret (t, s1)
          ∧ lexer.Transform s1 t = .panic p))
    (hfuel : read.length + 1 ≤ fuel) :
    (∀ e, p = .lexError e →
        ∃ tokens, ConsumeAll lexer transform fuel = .ret (tokens, some e))
      ∧ ((∀ e, p ≠ .lexError e) → ConsumeAll lexer transform fuel = .panic p)
      ∧ (∀ (l : Lexer σ) (tr : Bool) (n : Nat),
          ((ConsumeAllBody l tr n l.state [] 0).stop = .ret () →
            ConsumeAll l tr n = .ret ((ConsumeAllBody l tr n l.state [] 0).tokens, none))
          ∧ (∀ tokens e, ConsumeAll l tr n = .ret (tokens, some e) →
            (ConsumeAllBody l tr n l.state [] 0).stop = .panic (.lexError e))) := by
  have hbody := ConsumeAllBody_reads_panic lexer transform read s p fuel hreads hearly
    hpanic hfuel
  refine ⟨fun e he => ?_, fun hne => ?_, fun l tr n => ⟨fun h => ?_, fun tokens e h => ?_⟩⟩
  · subst he
    refine ⟨read, ?_⟩
    unfold ConsumeAll
    rw [hbody]
  · unfold ConsumeAll
    rw [hbody]
    cases p with
    | lexError e => exact absurd rfl (hne e)
    | runtimeError w => rfl
    | other v => rfl
  · unfold ConsumeAll
    simp only [h]
  · unfold ConsumeAll at h
    generalize (ConsumeAllBody l tr n l.state [] 0) = run at h
    obtain ⟨tk, c, st⟩ := run
    cases st with
    | ret u => simp at h
    | outOfFuel => simp at h
    | panic q =>
      cases q with
      | lexError e1 =>
        simp only [Res.ret.injEq, Prod.mk.injEq, Option.some.injEq] at h
        rw [h.2]
      | runtimeError w => simp at h
      | other v => simp at h

theorem C12_consumeAll_returns_lexer_errors_witness :
    ∃ tokens, ConsumeAll ((Unquote brokenDef []).Lex ()) true 2
      = .ret (tokens, some
          { Format := "invalid quoted string %q: %s",
            Args := [str "\"a\\qb\"", str "invalid syntax"], Pos := ⟨[], 6, 1, 7⟩ }) :=
  (C12_consumeAll_returns_lexer_errors ((Unquote brokenDef []).Lex ()) true
    [ { Type_ := -2, Value := str "hello", Pos := ⟨[], 0, 1, 1⟩ } ]
    [ { Type_ := -6, Value := str "\"a\\qb\"", Pos := ⟨[], 6, 1, 7⟩ },
      { Type_ := -2, Value := str "world", Pos := ⟨[], 13, 1, 14⟩ } ]
    (Panic.lexError (Error.mk "invalid quoted string %q: %s"
      [str "\"a\\qb\"", str "invalid syntax"] ⟨[], 6, 1, 7⟩)) 2
    (by decide) (by decide)
    (Or.inr ⟨rfl, { Type_ := -6, Value := str "\"a\\qb\"", Pos := ⟨[], 6, 1, 7⟩ },
      [ { Type_ := -2, Value := str "world", Pos := ⟨[], 13, 1, 14⟩ } ],
      by decide, by decide⟩)
    (by decide)).1 _ rfl

/-- C13 (as amended). A lex failure surfaces as the error `ConsumeAll` returns, together
with the tokens read before the failure: when, after reads that returned the tokens
`read`, `Next` or `Transform` panics with the lexer error `e`, `ConsumeAll` returns
exactly `read` as `tokens`, in order, and `e` as `err`; nothing read after the failure
is returned. -/
theorem C13_consumeAll_returns_tokens_read_before_failure {σ : Type} (lexer : Lexer σ)
    (transform : Bool) (read : List Token) (s : σ) (e : Error) (fuel : Nat)
    (hreads : Lexer.reads lexer transform read.length lexer.state = some (read, s))
    (hearly : ∀ t ∈ read, t.Type_ ≠ EOF)
    (hpanic : lexer.Next s = .panic (.lexError e)
      ∨ (transform = true ∧ ∃ t s1, lexer.Next s = .ret (t, s1)
          ∧ lexer.Transform s1 t = .panic (.lexError e)))
    (hfuel : read.length + 1 ≤ fuel) :
    ConsumeAll lexer transform fuel = .ret (read, some e) := by
  have hbody := ConsumeAllBody_reads_panic lexer transform read s (.lexError e) fuel
    hreads hearly hpanic hfuel
  unfold ConsumeAll
  rw [hbody]

theorem C13_consumeAll_returns_tokens_read_before_failure_witness :
    ConsumeAll ((Unquote brokenDef []).Lex ()) true 2
      = .ret ([ { Type_ := -2, Value := str "hello", Pos := ⟨[], 0, 1, 1⟩ } ], some
          { Format := "invalid quoted string %q: %s",
            Args := [str "\"a\\qb\"", str "invalid syntax"], Pos := ⟨[], 6, 1, 7⟩ }) :=
  C13_consumeAll_returns_tokens_read_before_failure ((Unquote brokenDef []).Lex ()) true
    [ { Type_ := -2, Value := str "hello", Pos := ⟨[], 0, 1, 1⟩ } ]
    [ { Type_ := -6, Value := str "\"a\\qb\"", Pos := ⟨[], 6, 1, 7⟩ },
      { Type_ := -2, Value := str "world", Pos := ⟨[], 13, 1, 14⟩ } ]
    { Format := "invalid quoted string %q: %s",
      Args := [str "\"a\\qb\"", str "invalid syntax"], Pos := ⟨[], 6, 1, 7⟩ } 2
    (by decide) (by decide)
    (Or.inr ⟨rfl, { Type_ := -6, Value := str "\"a\\qb\"", Pos := ⟨[], 6, 1, 7⟩ },
      [ { Type_ := -2, Value := str "world", Pos := ⟨[], 13, 1, 14⟩ } ],
      by decide, by decide⟩)
    (by decide)

/-- C13 (the claim as stated fails). On a lexer whose second token is a string literal
with an invalid escape, `ConsumeAll(lexer, true)` returns the lexer error together with
the token read before the failure, not with an empty list of tokens. -/
theorem C13_partial_tokens_counterexample :
    ConsumeAll ((Unquote brokenDef []).Lex ()) true 5
        = .ret ([ { Type_ := -2, Value := str "hello", Pos := ⟨[], 0, 1, 1⟩ } ], some
            { Format := "invalid quoted string %q: %s",
              Args := [str "\"a\\qb\"", str "invalid syntax"], Pos := ⟨[], 6, 1, 7⟩ })
      ∧ ∀ e, ConsumeAll ((Unquote brokenDef []).Lex ()) true 5 ≠ .ret ([], some e) := by
  have h : ConsumeAll ((Unquote brokenDef []).Lex ()) true 5
      = .ret ([ { Type_ := -2, Value := str "hello", Pos := ⟨[], 0, 1, 1⟩ } ], some
          { Format := "invalid quoted string %q: %s",
            Args := [str "\"a\\qb\"", str "invalid syntax"], Pos := ⟨[], 6, 1, 7⟩ }) := by
    decide
  refine ⟨h, fun e he => ?_⟩
  rw [h] at he
  simp at he


/-! ### `Position.String` -/

theorem Sprintf_position (name : GoString) (line column : Int) :
    Sprintf (str "%s:%d:%d") [.string name, .int line, .int column]
      = some (name ++ str ":" ++ decimal line ++ str ":" ++ decimal column) := by
  have e : str "%s:%d:%d" = [0x25, 0x73, 0x3A, 0x25, 0x64, 0x3A, 0x25, 0x64] := by decide
  have e1 : str ":" = [0x3A] := by decide
  rw [e, e1]
  simp [Sprintf]

/-- C14. Position text form: `p.String()` is the name, a colon, the line in decimal, a
colon and the column in decimal, the name being `p.Filename` when that is not empty and
the placeholder `<source>` when it is; the field `Offset` does not influence the
result. -/
theorem C14_position_string_form (p : Position) :
    p.String
        = (if p.Filename = [] then str "<source>" else p.Filename) ++ str ":"
          ++ decimal p.Line ++ str ":" ++ decimal p.Column
      ∧ (∀ offset : Int, ({ p with Offset := offset } : Position).String = p.String)
      ∧ Position.String ⟨str "lexer.go", 120, 12, 3⟩ = str "lexer.go:12:3"
      ∧ Position.String ⟨[], 0, 1, 1⟩ = str "<source>:1:1" := by
  refine ⟨?_, fun offset => rfl, by decide, by decide⟩
  unfold Position.String
  simp only [Sprintf_position, Option.getD_some]

/-! ### `SymbolsByRune` -/

theorem GoMap.mem_of_find {κ ν : Type} [DecidableEq κ] (m : GoMap κ ν) (k : κ) (v : ν)
    (h : GoMap.find m k = some v) : (k, v) ∈ m := by
  induction m with
  | nil => simp [GoMap.find] at h
  | cons p rest ih =>
    obtain ⟨a, b⟩ := p
    unfold GoMap.find at h
    by_cases hk : a = k
    · rw [if_pos hk] at h
      simp only [Option.some.injEq] at h
      subst hk; subst h
      exact List.mem_cons_self _ _
    · rw [if_neg hk] at h
      exact List.mem_cons_of_mem _ (ih h)

theorem GoMap.find_of_mem {κ ν : Type} [DecidableEq κ] (m : GoMap κ ν) (k : κ) (v : ν)
    (hk : (m.map Prod.fst).Nodup) (h : (k, v) ∈ m) : GoMap.find m k = some v := by
  induction m with
  | nil => simp at h
  | cons p rest ih =>
    obtain ⟨a, b⟩ := p
    simp only [List.map_cons, List.nodup_cons] at hk
    unfold GoMap.find
    rcases List.mem_cons.mp h with h | h
    · simp only [Prod.mk.injEq] at h
      rw [if_pos h.1.symm, h.2]
    · have hne : a ≠ k := by
        intro hak
        subst hak
        exact hk.1 (List.mem_map_of_mem Prod.fst h)
      rw [if_neg hne]
      exact ih hk.2 h

/-- An entry of the map built by the loop of `SymbolsByRune` was in the map at the start
or comes from an entry visited. -/
theorem byRune_find (l : GoMap GoString Int) :
    ∀ (init : GoMap Int GoString) (r : Int) (name : GoString),
      GoMap.find (l.foldl (fun out p => GoMap.set out p.2 p.1) init) r = some name →
      GoMap.find init r = some name ∨ (name, r) ∈ l := by
  induction l with
  | nil => intro init r name h; exact Or.inl h
  | cons p rest ih =>
    intro init r name h
    obtain ⟨s, r0⟩ := p
    rw [List.foldl_cons] at h
    rcases ih _ r name h with h1 | h1
    · rw [GoMap.find_set] at h1
      by_cases hr : r0 = r
      · rw [if_pos hr] at h1
        simp only [Option.some.injEq] at h1
        subst hr; subst h1
        exact Or.inr (List.mem_cons_self _ _)
      · rw [if_neg hr] at h1
        exact Or.inl h1
    · exact Or.inr (List.mem_cons_of_mem _ h1)

/-- The loop of `SymbolsByRune` leaves alone the runes that no visited entry has. -/
theorem byRune_find_absent (l : GoMap GoString Int) :
    ∀ (init : GoMap Int GoString) (r : Int), r ∉ l.map Prod.snd →
      GoMap.find (l.foldl (fun out p => GoMap.set out p.2 p.1) init) r
        = GoMap.find init r := by
  induction l with
  | nil => intro init r _; rfl
  | cons p rest ih =>
    intro init r h
    obtain ⟨s, r0⟩ := p
    simp only [List.map_cons, List.mem_cons, not_or] at h
    rw [List.foldl_cons, ih _ r h.2, GoMap.find_set, if_neg (fun e => h.1 e.symm)]

/-- With pairwise distinct runes every visited entry is in the map the loop builds. -/
theorem byRune_find_of_mem (l : GoMap GoString Int) :
    ∀ (init : GoMap Int GoString) (r : Int) (name : GoString),
      (l.map Prod.snd).Nodup → (name, r) ∈ l →
      GoMap.find (l.foldl (fun out p => GoMap.set out p.2 p.1) init) r = some name := by
  induction l with
  | nil => intro init r name _ h; simp at h
  | cons p rest ih =>
    intro init r name hv h
    obtain ⟨s, r0⟩ := p
    simp only [List.map_cons, List.nodup_cons] at hv
    rw [List.foldl_cons]
    rcases List.mem_cons.mp h with h | h
    · simp only [Prod.mk.injEq] at h
      obtain ⟨rfl, rfl⟩ := h
      rw [byRune_find_absent rest _ r hv.1, GoMap.find_set, if_pos rfl]
    · exact ih _ r name hv.2 h

/-- With pairwise distinct runes, none of them in the map at the start, the loop adds
one entry per entry visited. -/
theorem byRune_length (l : GoMap GoString Int) :
    ∀ (init : GoMap Int GoString), (l.map Prod.snd).Nodup →
      (∀ r ∈ l.map Prod.snd, r ∉ init.map Prod.fst) →
      (l.foldl (fun out p => GoMap.set out p.2 p.1) init).length
        = init.length + l.length := by
  induction l with
  | nil => intro init _ _; rfl
  | cons p rest ih =>
    intro init hv hd
    obtain ⟨s, r0⟩ := p
    simp only [List.map_cons, List.nodup_cons] at hv
    have hr0 : r0 ∉ init.map Prod.fst := hd r0 (by simp)
    have hfilter : init.filter (fun q => decide (q.1 ≠ r0)) = init := by
      rw [List.filter_eq_self]
      intro q hq
      have : q.1 ≠ r0 := fun e => hr0 (e ▸ List.mem_map_of_mem Prod.fst hq)
      simpa using this
    have hset : GoMap.set init r0 s = (r0, s) :: init := by
      unfold GoMap.set; rw [hfilter]
    rw [List.foldl_cons, ih _ hv.2, hset]
    · simp only [List.length_cons]; omega
    · intro r hr
      rw [hset]
      simp only [List.map_cons, List.mem_cons, not_or]
      refine ⟨fun e => hv.1 (e ▸ hr), hd r ?_⟩
      simp only [List.map_cons, List.mem_cons]
      exact Or.inr hr

/-- C15. The symbol table is a bidirectional mapping. For a definition whose `Symbols()`
is a map (no name occurs twice): every entry `r -> name` of `SymbolsByRune(def)` has
`Symbols()[name] = r`; and when the map assigns distinct runes to distinct names,
`SymbolsByRune(def)` is its exact inverse, `r -> name` being an entry of it if and only
if `name -> r` is an entry of `Symbols()`, and the two maps have the same number of
entries. -/
theorem C15_symbolsByRune_inverts_symbols {ρ σ : Type} (d : Definition ρ σ)
    (hkeys : (d.Symbols.map Prod.fst).Nodup) :
    (∀ (r : Int) (name : GoString), GoMap.find (SymbolsByRune d) r = some name →
        GoMap.find d.Symbols name = some r)
      ∧ ((d.Symbols.map Prod.snd).Nodup →
          (∀ (r : Int) (name : GoString), GoMap.find (SymbolsByRune d) r = some name
              ↔ GoMap.find d.Symbols name = some r)
            ∧ (SymbolsByRune d).length = d.Symbols.length) := by
  have hentry : ∀ (r : Int) (name : GoString),
      GoMap.find (SymbolsByRune d) r = some name → GoMap.find d.Symbols name = some r := by
    intro r name h
    rcases byRune_find d.Symbols [] r name h with h1 | h1
    · simp [GoMap.find] at h1
    · exact GoMap.find_of_mem _ _ _ hkeys h1
  refine ⟨hentry, fun hvals => ⟨fun r name => ⟨hentry r name, fun h => ?_⟩, ?_⟩⟩
  · exact byRune_find_of_mem d.Symbols [] r name hvals (GoMap.mem_of_find _ _ _ h)
  · have := byRune_length d.Symbols [] hvals (by simp)
    simpa [SymbolsByRune] using this

theorem C15_symbolsByRune_inverts_symbols_witness :
    GoMap.find sampleDef.Symbols (str "Ident") = some (-2)
      ∧ GoMap.find (SymbolsByRune sampleDef) (-2) = some (str "Ident")
      ∧ (SymbolsByRune sampleDef).length = 8 :=
  have h := (C15_symbolsByRune_inverts_symbols sampleDef (by decide)).2 (by decide)
  ⟨by decide, (h.1 (-2) (str "Ident")).mpr (by decide), h.2⟩


/-! ### The stream contract: `Peek` and `Next` -/

theorem listLexer_nexts_all (toks : List Token) (eof : Token) :
    ∀ s : List Token, Lexer.nexts (listLexer toks eof) s.length s = some (s, []) := by
  intro s
  induction s with
  | nil => rfl
  | cons t rest ih =>
    simp only [List.length_cons, Lexer.nexts]
    simp only [listLexer, List.headD_cons, List.tail_cons]
    have := ih
    simp only [listLexer] at this
    rw [this]
    rfl

theorem listLexer_nexts_exhausted (toks : List Token) (eof : Token) :
    ∀ k : Nat, Lexer.nexts (listLexer toks eof) k [] = some (List.replicate k eof, []) := by
  intro k
  induction k with
  | zero => rfl
  | succ k ih =>
    simp only [Lexer.nexts]
    simp only [listLexer, List.headD_nil, List.tail_nil]
    have := ih
    simp only [listLexer] at this
    rw [this]
    rfl

/-- C16. On the stream of a source with the tokens `toks` and the end-of-stream token
`eof`, in any state `s` of the cursor: `Peek(0)` followed immediately by `Next()` returns
the same token twice; `Peek(n)` called again with no `Next()` in between returns the
same token; reading on from `s` returns the remaining tokens and exhausts the stream;
and once the stream is exhausted `Next()` and `Peek(n)` return the EOF token, however
many times they are called. A lexer made by `Map` over the stream, whose `Peek` and
`Next` are the stream's, returns the same token from `Peek(0)` and `Next()` as well. -/
theorem C16_peek_next_contract (toks : List Token) (eof : Token) (s : List Token)
    (n : Int) (heof : eof.Type_ = EOF) :
    (∃ t s1 s2, (listLexer toks eof).Peek s 0 = .ret (t, s1)
        ∧ (listLexer toks eof).Next s1 = .ret (t, s2))
      ∧ (∃ t s1 s2, (listLexer toks eof).Peek s n = .ret (t, s1)
        ∧ (listLexer toks eof).Peek s1 n = .ret (t, s2))
      ∧ Lexer.nexts (listLexer toks eof) s.length s = some (s, [])
      ∧ (∀ k : Nat, Lexer.nexts (listLexer toks eof) k []
          = some (List.replicate k eof, []))
      ∧ (∀ m : Int, (listLexer toks eof).Peek [] m = .ret (eof, []))
      ∧ eof.EOF = true
      ∧ (∀ f : TransformerFunc, ∃ t s1 s2,
          (mapper.toLexer { Lexer := listLexer toks eof, f := f }).Peek s 0 = .ret (t, s1)
            ∧ (mapper.toLexer { Lexer := listLexer toks eof, f := f }).Next s1
              = .ret (t, s2)) := by
  refine ⟨⟨s.headD eof, s, s.tail, ?_, rfl⟩, ⟨_, s, s, rfl, rfl⟩,
    listLexer_nexts_all toks eof s, listLexer_nexts_exhausted toks eof, fun m => ?_,
    by simp [Token.EOF, heof], fun f => ⟨s.headD eof, s, s.tail, ?_, rfl⟩⟩
  · rfl
  · simp [listLexer]
  · rfl

theorem C16_peek_next_contract_witness :
    (listLexer
        [ { Type_ := -2, Value := str "hello", Pos := ⟨[], 0, 1, 1⟩ },
          { Type_ := -2, Value := str "world", Pos := ⟨[], 6, 1, 7⟩ } ]
        { Type_ := EOF, Value := [], Pos := ⟨[], 11, 1, 12⟩ }).Peek [] 0
      = .ret ({ Type_ := EOF, Value := [], Pos := ⟨[], 11, 1, 12⟩ }, []) :=
  (C16_peek_next_contract
    [ { Type_ := -2, Value := str "hello", Pos := ⟨[], 0, 1, 1⟩ },
      { Type_ := -2, Value := str "world", Pos := ⟨[], 6, 1, 7⟩ } ]
    { Type_ := EOF, Value := [], Pos := ⟨[], 11, 1, 12⟩ }
    [ { Type_ := -2, Value := str "world", Pos := ⟨[], 6, 1, 7⟩ } ] 1 rfl).2.2.2.2.1 0

/-! ### `unquote`: bounds of the accesses and of the loop -/

/-- C17. `unquote` indexes its input safely only when the value has at least two bytes.
On a string `s` of two bytes or more the accesses `s[0]` and `s[1:len(s)-1]` are in
bounds: `s` is a first byte, a body and a last byte, `unquote` goes on to decode the
body with the first byte as quote, and it returns. On a string of less than two bytes it
hits an out-of-range access, a run-time panic, and returns neither a result nor an
error; so does the mapping function of `Unquote` on an EOF token with an empty value
when the type EOF is selected. -/
theorem C17_unquote_accesses_need_two_bytes (s : GoString) :
    (2 ≤ s.length →
        (∃ quote body last, s = quote :: (body ++ [last])
          ∧ unquote s = unquoteLoop quote body.length body [])
        ∧ ∃ r, unquote s = .ret r)
      ∧ (s.length < 2 → ∃ what, unquote s = .panic (.runtimeError what))
      ∧ unquote [] = .panic (.runtimeError "index out of range")
      ∧ (∀ b : Nat, unquote [b] = .panic (.runtimeError "slice bounds out of range"))
      ∧ unquoteFunc (MakeSymbolTable sampleDef [str "EOF"])
          { Type_ := EOF, Value := [], Pos := ⟨[], 11, 1, 12⟩ }
        = .panic (.runtimeError "index out of range") := by
  refine ⟨fun h => ?_, fun h => ?_, rfl, fun b => rfl, by decide⟩
  · obtain ⟨quote, body, last, hs⟩ := GoString.delimited s h
    refine ⟨⟨quote, body, last, hs, by rw [hs, unquote_delimited]⟩, ?_⟩
    rw [hs, unquote_delimited]
    exact unquoteLoop_returns _ _ _ _ (le_refl _)
  · match s, h with
    | [], _ => exact ⟨_, rfl⟩
    | [b], _ => exact ⟨_, rfl⟩
    | _ :: _ :: _, h => simp only [List.length_cons] at h; omega

theorem C17_unquote_accesses_need_two_bytes_witness :
    (∃ r, unquote (str "\"a\"") = .ret r)
      ∧ ∃ what, unquote (str "\"") = .panic (.runtimeError what) :=
  ⟨((C17_unquote_accesses_need_two_bytes (str "\"a\"")).1 (by decide)).2,
    (C17_unquote_accesses_need_two_bytes (str "\"")).2.1 (by decide)⟩


/-- `string(r)` depends on the low 32 bits of `r` only. -/
theorem runeToString_mod (v : Nat) : runeToString v = runeToString (v % 2 ^ 32) := by
  have f0 : v % 2 ^ 32 % 2 ^ 32 = v % 2 ^ 32 := Nat.mod_mod _ _
  have f1 : v % 2 ^ 32 % 256 = v % 256 := by omega
  have f6 : ((v % 2 ^ 32) >>> 6) % 256 = (v >>> 6) % 256 := by
    rw [shr6, shr6]; norm_num; omega
  have f12 : ((v % 2 ^ 32) >>> 12) % 256 = (v >>> 12) % 256 := by
    rw [shr12, shr12]; norm_num; omega
  have f18 : ((v % 2 ^ 32) >>> 18) % 256 = (v >>> 18) % 256 := by
    rw [shr18, shr18]; norm_num; omega
  unfold runeToString
  simp only [f0, f1, f6, f12, f18]

/-- `string(r)` of a value that is not a code point is the encoding of U+FFFD. -/
theorem runeToString_invalid (i : Nat) (h : i < 2 ^ 32) (hs : ¬ IsScalar i) :
    runeToString i = utf8Bytes 0xFFFD := by
  unfold IsScalar at hs
  have hm : i % 2 ^ 32 = i := Nat.mod_eq_of_lt h
  have e : utf8Bytes 0xFFFD = [0xEF, 0xBF, 0xBD] := by decide
  unfold runeToString
  simp only [hm]
  rw [if_neg (by omega), if_neg (by omega), if_pos (by omega), e]

/-- `string(r)` is always the UTF-8 encoding of one character. -/
theorem runeToString_char (v : Nat) : ∃ c, IsScalar c ∧ runeToString v = utf8Bytes c := by
  rw [runeToString_mod]
  by_cases hs : IsScalar (v % 2 ^ 32)
  · exact ⟨_, hs, runeToString_scalar _ hs⟩
  · exact ⟨0xFFFD, Or.inr (by norm_num),
      runeToString_invalid _ (Nat.mod_lt _ (by norm_num)) hs⟩

/-- The loop of `unquote`, run with at least as many iterations as the string has bytes,
returns an error or appends the encodings of at most as many characters as the string
has bytes. -/
theorem unquoteLoop_chars (quote : Nat) (fuel : Nat) :
    ∀ (s out : GoString), s.length ≤ fuel →
      unquoteLoop quote fuel s out = .ret (.error .ErrSyntax)
        ∨ ∃ cs : List Nat, (∀ c ∈ cs, IsScalar c) ∧ cs.length ≤ s.length
          ∧ unquoteLoop quote fuel s out = .ret (.ok (out ++ (cs.map utf8Bytes).flatten)) := by
  induction fuel with
  | zero =>
    intro s out h
    have : s = [] := List.length_eq_zero.mp (by omega)
    subst this
    exact Or.inr ⟨[], by simp, by simp, by simp [unquoteLoop_nil]⟩
  | succ f ih =>
    intro s out h
    cases s with
    | nil => exact Or.inr ⟨[], by simp, by simp, by simp [unquoteLoop_nil]⟩
    | cons b r =>
      rw [unquoteLoop_cons]
      cases hu : strconv.UnquoteChar (b :: r) quote with
      | error e =>
        cases e
        exact Or.inl rfl
      | ok x =>
        obtain ⟨v, mb, tail⟩ := x
        obtain ⟨k, hk1, hk2, hk⟩ := strconv.UnquoteChar_tail _ _ _ _ _ hu
        have htl : tail.length < (b :: r).length := by
          rw [hk, List.length_drop]; omega
        simp only
        rcases ih tail (out ++ runeToString v)
          (by simp only [List.length_cons] at h htl; omega) with h1 | ⟨cs, hcs, hlen, h1⟩
        · exact Or.inl h1
        · obtain ⟨c, hc, hcv⟩ := runeToString_char v
          refine Or.inr ⟨c :: cs, ?_, ?_, ?_⟩
          · intro x hx
            rcases List.mem_cons.mp hx with hx | hx
            · rw [hx]; exact hc
            · exact hcs x hx
          · simp only [List.length_cons] at htl ⊢; omega
          · rw [h1, hcv]
            simp [List.append_assoc]

/-- C18. `unquote` terminates on every input of two bytes or more, `quote`, `body`,
`last`. A successful call of `UnquoteChar` leaves a strictly shorter tail, consuming at
least one byte; so the loop needs no more iterations than the body has bytes, a larger
bound changing nothing; and `unquote` returns, either an error or the encodings of at
most as many characters as the body has bytes. -/
theorem C18_unquote_terminates_within_body_length (quote last : Nat) (body : GoString) :
    (∀ (s : GoString) (v : Nat) (mb : Bool) (tail : GoString),
        strconv.UnquoteChar s quote = .ok (v, mb, tail) →
        tail.length < s.length ∧ ∃ k, 1 ≤ k ∧ tail = s.drop k)
      ∧ (∀ (fuel : Nat) (out : GoString), body.length ≤ fuel →
          unquoteLoop quote fuel body out = unquoteLoop quote body.length body out)
      ∧ (∃ r, unquote (quote :: (body ++ [last])) = .ret r)
      ∧ (unquote (quote :: (body ++ [last])) = .ret (.error .ErrSyntax)
          ∨ ∃ cs : List Nat, (∀ c ∈ cs, IsScalar c) ∧ cs.length ≤ body.length
            ∧ unquote (quote :: (body ++ [last]))
              = .ret (.ok ((cs.map utf8Bytes).flatten))) := by
  refine ⟨fun s v mb tail h => ?_, fun fuel out h => ?_, ?_, ?_⟩
  · obtain ⟨k, hk1, hk2, hk⟩ := strconv.UnquoteChar_tail _ _ _ _ _ h
    refine ⟨?_, k, hk1, hk⟩
    rw [hk, List.length_drop]; omega
  · exact unquoteLoop_fuel quote fuel body.length body out h (le_refl _)
  · rw [unquote_delimited]
    exact unquoteLoop_returns _ _ _ _ (le_refl _)
  · rw [unquote_delimited]
    rcases unquoteLoop_chars quote body.length body [] (le_refl _) with h | ⟨cs, h1, h2, h3⟩
    · exact Or.inl h
    · exact Or.inr ⟨cs, h1, h2, by simpa using h3⟩

theorem C18_unquote_terminates_within_body_length_witness :
    unquoteLoop 0x22 100 (str "a\\tb") [] = unquoteLoop 0x22 4 (str "a\\tb") []
      ∧ unquote (str "\"a\\tb\"") = .ret (.ok (str "a\tb"))
      ∧ (str "a\tb").length ≤ (str "a\\tb").length :=
  ⟨(C18_unquote_terminates_within_body_length 0x22 0x22 (str "a\\tb")).2.1 100 []
      (by decide), by decide, by decide⟩


end Participle
